import Mathlib

/-!
# BusTub buffer core: LRU replacer and parallel buffer pool manager

A shallow embedding of `src/buffer/lru_replacer.cpp` and
`src/buffer/parallel_buffer_pool_manager.cpp`, followed by the properties
established about them.

Conventions of the embedding

* `std::list<frame_id_t>` is a list of nodes, each node carrying the address
  of its cell and the frame id stored in it; the head of the Lean list is
  `front()`, its last element is `back()`.  A list iterator is the address of
  the cell it designates.
* `std::unordered_map<K, V>` is an association list with at most one entry
  per key (`emplace` does not overwrite, `erase` removes the key).
* Operations whose C++ behaviour is undefined (erasing through an iterator
  that designates no cell of the list, calling through a null pointer,
  taking a remainder by zero) return `none`.
* A `size_t` is a natural number below `2 ^ SIZE_BITS`; where the code can
  overflow one (the conversion of a page id in `GetBufferPoolManager`, the
  product in `GetPoolSize`, the increment of `starting_index_` in `NewPgImp`)
  the result is reduced modulo `2 ^ SIZE_BITS`.
* The mutex of the replacer serialises its operations; the embedding is the
  sequential behaviour of each operation under that lock.
-/

namespace bustub

/-! ## Types -/

/-- Modelled from the spec: the declaration of `frame_id_t` is in a header that
is not among the source files.  Frame identifiers are integers; the replacer
only stores and compares them. -/
abbrev frame_id_t := Int

/-- Modelled from the spec: the declaration of `page_id_t` is in a header that
is not among the source files.  Page identifiers are signed integers (the
invalid page id is `-1`). -/
abbrev page_id_t := Int

/-- One cell of `std::list<frame_id_t>`: `addr` is the identity of the cell
(what an iterator holds), `val` the frame id stored in it. -/
structure ListNode where
  addr : Nat
  val : frame_id_t
deriving DecidableEq, Repr

/-- The fields of `LRUReplacer`. -/
structure LRUReplacer where
  num_pages_ : Nat
  frame_list_ : List ListNode
  frame_hashmap_ : List (frame_id_t × Nat)
deriving DecidableEq, Repr

/-! ## `std::list` primitives used by the replacer -/

/-- An address that designates no cell of `l` (what the allocator hands out
for a new cell): one more than the largest address in use.  Address `0` is
never handed out; it stands for `end()`. -/
def list_fresh (l : List ListNode) : Nat :=
  (l.map ListNode.addr).foldr max 0 + 1

/-- The method `push_front` of `std::list`: a new cell at the head. -/
def list_push_front (l : List ListNode) (v : frame_id_t) : List ListNode :=
  ⟨list_fresh l, v⟩ :: l

/-- The method `begin` of `std::list`: the iterator of the first cell
(`end()`, address `0`, when the list is empty). -/
def list_begin : List ListNode → Nat
  | [] => 0
  | n :: _ => n.addr

/-- The method `erase(iterator)` of `std::list`: unlinks the cell the iterator
designates; `none` when the iterator designates no cell of the list
(undefined behaviour). -/
def list_erase : List ListNode → Nat → Option (List ListNode)
  | [], _ => none
  | n :: l, it =>
    if n.addr = it then some l
    else match list_erase l it with
      | none => none
      | some l' => some (n :: l')

/-! ## `std::unordered_map` primitives used by the replacer -/

/-- The lookup behind `count` and `operator[]`. -/
def hashmap_find : List (frame_id_t × Nat) → frame_id_t → Option Nat
  | [], _ => none
  | (k, v) :: m, key => if k = key then some v else hashmap_find m key

/-- The method `count(key)` of `std::unordered_map`: `1` or `0`. -/
def hashmap_count (m : List (frame_id_t × Nat)) (key : frame_id_t) : Nat :=
  match hashmap_find m key with
  | some _ => 1
  | none => 0

/-- The method `erase(key)` of `std::unordered_map`. -/
def hashmap_erase (m : List (frame_id_t × Nat)) (key : frame_id_t) :
    List (frame_id_t × Nat) :=
  m.filter (fun e => decide (e.1 ≠ key))

/-- The method `emplace(key, value)` of `std::unordered_map`: inserts only
when the key is absent. -/
def hashmap_emplace (m : List (frame_id_t × Nat)) (key : frame_id_t) (v : Nat) :
    List (frame_id_t × Nat) :=
  match hashmap_find m key with
  | some _ => m
  | none => (key, v) :: m

/-! ## `LRUReplacer` -/

namespace LRUReplacer

/-- The constructor `LRUReplacer(num_pages)`. -/
def new (num_pages : Nat) : LRUReplacer :=
  { num_pages_ := num_pages, frame_list_ := [], frame_hashmap_ := [] }

/-- The method `Size()`: `frame_list_.size()`. -/
def Size (s : LRUReplacer) : Nat := s.frame_list_.length

/-- The method `Victim(frame_id*)`.  The result `none` is the return value
`false` (the out-parameter is not written); `some f` is the return value
`true` with `f` written to the out-parameter. -/
def Victim (s : LRUReplacer) : LRUReplacer × Option frame_id_t :=
  if s.Size = 0 then (s, none)
  else
    match s.frame_list_.getLast? with
    | none => (s, none)
    | some n =>
      ({ s with
          frame_hashmap_ := hashmap_erase s.frame_hashmap_ n.val,
          frame_list_ := s.frame_list_.dropLast },
        some n.val)

/-- The method `Pin(frame_id)`.  The result `none` is undefined behaviour:
the iterator stored for `frame_id` designates no cell of `frame_list_`. -/
def Pin (s : LRUReplacer) (frame_id : frame_id_t) : Option LRUReplacer :=
  if hashmap_count s.frame_hashmap_ frame_id = 0 then some s
  else
    match hashmap_find s.frame_hashmap_ frame_id with
    | none => none
    | some it =>
      match list_erase s.frame_list_ it with
      | none => none
      | some l =>
        some { s with
          frame_hashmap_ := hashmap_erase s.frame_hashmap_ frame_id,
          frame_list_ := l }

/-- The method `Unpin(frame_id)`. -/
def Unpin (s : LRUReplacer) (frame_id : frame_id_t) : LRUReplacer :=
  if hashmap_count s.frame_hashmap_ frame_id ≠ 0 then s
  else if s.Size < s.num_pages_ then
    let l := list_push_front s.frame_list_ frame_id
    { s with
      frame_list_ := l,
      frame_hashmap_ := hashmap_emplace s.frame_hashmap_ frame_id (list_begin l) }
  else s

/-! ### Observations on a replacer state -/

/-- The recency order: the frame ids of `frame_list_`, from `front()`
(most recently unpinned) to `back()` (least recently unpinned). -/
def frames (s : LRUReplacer) : List frame_id_t := s.frame_list_.map ListNode.val

/-- Membership in the evictable set, as `Pin` and `Unpin` test it
(`frame_hashmap_.count(f) != 0`). -/
def evictable (s : LRUReplacer) (f : frame_id_t) : Prop :=
  hashmap_count s.frame_hashmap_ f ≠ 0

instance (s : LRUReplacer) (f : frame_id_t) : Decidable (s.evictable f) := by
  unfold evictable; infer_instance

/-- Consistency of the two containers: the cells of `frame_list_` have
pairwise distinct addresses and pairwise distinct frame ids, `frame_hashmap_`
has one entry per key, an entry `(f, a)` is in `frame_hashmap_` exactly when
the cell at address `a` of `frame_list_` holds `f`, and the list is no longer
than the capacity. -/
structure Inv (s : LRUReplacer) : Prop where
  addr_nodup : (s.frame_list_.map ListNode.addr).Nodup
  val_nodup : (s.frame_list_.map ListNode.val).Nodup
  key_nodup : (s.frame_hashmap_.map Prod.fst).Nodup
  index : ∀ f a, (f, a) ∈ s.frame_hashmap_ ↔ (⟨a, f⟩ : ListNode) ∈ s.frame_list_
  capacity : s.frame_list_.length ≤ s.num_pages_

/-- Calls `Victim` until it returns `false`, at most `fuel` times; the frames
returned, in the order returned. -/
def drain : Nat → LRUReplacer → List frame_id_t
  | 0, _ => []
  | fuel + 1, s =>
    match s.Victim with
    | (_, none) => []
    | (s', some f) => f :: drain fuel s'

/-- The state after the calls of `drain`. -/
def drainState : Nat → LRUReplacer → LRUReplacer
  | 0, s => s
  | fuel + 1, s =>
    match s.Victim with
    | (s', none) => s'
    | (s', some _) => drainState fuel s'

/-- A call on the replacer. -/
inductive Op where
  | victim : Op
  | pin : frame_id_t → Op
  | unpin : frame_id_t → Op
deriving DecidableEq, Repr

/-- One call: the state after it and what `Victim` returned (`none` for
`Pin`, `Unpin` and a `Victim` that returned `false`); `none` overall when the
call has undefined behaviour. -/
def step (s : LRUReplacer) : Op → Option (LRUReplacer × Option frame_id_t)
  | .victim => some s.Victim
  | .pin f => (s.Pin f).map (fun s' => (s', none))
  | .unpin f => some (s.Unpin f, none)

/-- A sequence of calls, from left to right. -/
def exec : LRUReplacer → List Op → Option LRUReplacer
  | s, [] => some s
  | s, op :: ops =>
    match s.step op with
    | none => none
    | some (s', _) => exec s' ops

/-- Calls `Unpin` on the elements of a list, in order. -/
def unpinAll (s : LRUReplacer) (L : List frame_id_t) : LRUReplacer :=
  L.foldl Unpin s

/-- Call number `i` of the sequence `ops`, run on a fresh replacer of capacity
`k`, is an `Unpin(f)` that inserted `f`: it was made in a state where `f` was
not evictable and the size was below the capacity. -/
def insertsAt (k : Nat) (ops : List Op) (i : Nat) (f : frame_id_t) : Prop :=
  ops[i]? = some (Op.unpin f) ∧
    ∃ s, exec (new k) (ops.take i) = some s ∧ ¬ s.evictable f ∧ s.Size < s.num_pages_

/-- Call number `i` of `ops` is the inserting `Unpin` to which `f` owes its
place at the end of `ops`: that call inserted `f`, and `f` has been evictable
after every later call. -/
def evictableSince (k : Nat) (ops : List Op) (i : Nat) (f : frame_id_t) : Prop :=
  i < ops.length ∧ insertsAt k ops i f ∧
    ∀ t, i < t → t ≤ ops.length → ∃ s, exec (new k) (ops.take t) = some s ∧ s.evictable f

/-- The recency list of `s` can be labelled, frame by frame, with the number
of the call that inserted the frame, and the labels decrease from `front()` to
`back()`. -/
def History (k : Nat) (ops : List Op) (s : LRUReplacer) : Prop :=
  ∃ ps : List (frame_id_t × Nat),
    ps.map Prod.fst = s.frames ∧
    (ps.map Prod.snd).Pairwise (fun a b => a > b) ∧
    ∀ p ∈ ps, evictableSince k ops p.2 p.1

/-- The number of `Victim` calls of the sequence `ops`, run from the state `s`,
that return the frame `f`. -/
def victimCount (f : frame_id_t) : LRUReplacer → List Op → Nat
  | _, [] => 0
  | s, op :: ops =>
    match s.step op with
    | none => 0
    | some (s', out) => (if out = some f then 1 else 0) + victimCount f s' ops

/-- The number of `Unpin(f)` calls of the sequence `ops`, run from the state
`s`, that insert `f`: calls made when `f` is not evictable and the size is
below the capacity. -/
def insertCount (f : frame_id_t) : LRUReplacer → List Op → Nat
  | _, [] => 0
  | s, op :: ops =>
    match s.step op with
    | none => 0
    | some (s', _) =>
      (if op = Op.unpin f ∧ ¬ s.evictable f ∧ s.Size < s.num_pages_ then 1 else 0) +
        insertCount f s' ops

end LRUReplacer

/-! ## The buffer-pool shards (external collaborator) -/

/-- Modelled from the spec: `BufferPoolManagerInstance` and the interface
`BufferPoolManager` it implements are not among the source files.  A
shard is a state of type `σ` with the operations of section 6 of the
specification; `NewPage` returns the new page id together with the page
handle, or nothing.  `create pool_size num_instances instance_index` is the
constructor of a shard. -/
structure BufferPoolManager (σ Page : Type) where
  create : Nat → Nat → Nat → σ
  NewPage : σ → σ × Option (page_id_t × Page)
  FetchPage : σ → page_id_t → σ × Option Page
  UnpinPage : σ → page_id_t → Bool → σ × Bool
  FlushPage : σ → page_id_t → σ × Bool
  DeletePage : σ → page_id_t → σ × Bool
  FlushAllPages : σ → σ

/-- An operation invoked on a shard. -/
inductive Call where
  | NewPage : Call
  | FetchPage : page_id_t → Call
  | UnpinPage : page_id_t → Bool → Call
  | FlushPage : page_id_t → Call
  | DeletePage : page_id_t → Call
  | FlushAllPages : Call
deriving DecidableEq, Repr

/-! ## `ParallelBufferPoolManager` -/

/-- The width of `size_t` in bits (64 on the platforms BusTub is built for). -/
def SIZE_BITS : Nat := 64

/-- Modelled from the spec: the header that declares the fields of
`ParallelBufferPoolManager` is not among the source files; the fields are
those the source file reads and writes.  `instances_` maps an index to a
pointer to a shard; the pointer is `none` when null, and otherwise is
represented by the state of the shard it points to (every shard is pointed to
from one entry only).  The cursor `starting_index_` is taken to be a `size_t`,
like the counters it is combined with in `NewPgImp` (`num_instances`,
`loop_counter`): its value is below `2 ^ SIZE_BITS` and its increment wraps. -/
structure ParallelBufferPoolManager (σ : Type) where
  instances_ : List (Nat × Option σ)
  starting_index_ : Nat
  instance_pool_size_ : Nat
  num_instances_ : Nat

/-- The lookup behind `instances_[key]`. -/
def instances_find {σ : Type} : List (Nat × Option σ) → Nat → Option (Option σ)
  | [], _ => none
  | (k, v) :: m, key => if k = key then some v else instances_find m key

/-- The method `emplace(key, value)` on `instances_`: inserts only when the key
is absent. -/
def instances_emplace {σ : Type} (m : List (Nat × Option σ)) (key : Nat)
    (v : Option σ) : List (Nat × Option σ) :=
  match instances_find m key with
  | some _ => m
  | none => m ++ [(key, v)]

/-- The expression `instances_[key]`: the pointer stored under `key`; when
the key is absent `operator[]` first inserts a null pointer under it. -/
def instances_at {σ : Type} (m : List (Nat × Option σ)) (key : Nat) :
    List (Nat × Option σ) × Option σ :=
  match instances_find m key with
  | some v => (m, v)
  | none => (m ++ [(key, none)], none)

/-- The effect on the map of a call through the pointer stored under `key`
that leaves the shard in state `v`. -/
def instances_store {σ : Type} : List (Nat × Option σ) → Nat → σ → List (Nat × Option σ)
  | [], _, _ => []
  | (k, w) :: m, key, v =>
    if k = key then (k, some v) :: m else (k, w) :: instances_store m key v

/-- The map `m'` has the keys of `m`, in the same order, and holds a shard
under every key under which `m` holds one. -/
def Extends {σ : Type} (m' m : List (Nat × Option σ)) : Prop :=
  m'.map Prod.fst = m.map Prod.fst ∧
    ∀ k, (∃ sh, instances_find m k = some (some sh)) →
      ∃ sh', instances_find m' k = some (some sh')

namespace ParallelBufferPoolManager

variable {σ Page : Type}

/-- The constructor `ParallelBufferPoolManager(num_instances, pool_size, ...)`. -/
def new (bpm : BufferPoolManager σ Page) (num_instances pool_size : Nat) :
    ParallelBufferPoolManager σ :=
  { instances_ :=
      (List.range num_instances).foldl
        (fun m instance_index =>
          instances_emplace m instance_index
            (some (bpm.create pool_size num_instances instance_index)))
        [],
    starting_index_ := 0,
    instance_pool_size_ := pool_size,
    num_instances_ := num_instances }

/-- The index computed by `page_id % num_instances` in `GetBufferPoolManager`:
`num_instances` is a `size_t`, so the signed `page_id` is converted to `size_t`
(reduced modulo `2 ^ SIZE_BITS`) before the remainder is taken.  The result is
`none` when `num_instances` is `0` (remainder by zero). -/
def GetBufferPoolManager_index (page_id : page_id_t) (num_instances : Nat) : Option Nat :=
  if num_instances = 0 then none
  else some ((page_id % (2 ^ SIZE_BITS : Int)).toNat % num_instances)

/-- The method `GetBufferPoolManager(page_id)`: the router after the lookup
(`operator[]` may insert), the index looked up and the pointer found there. -/
def GetBufferPoolManager (r : ParallelBufferPoolManager σ) (page_id : page_id_t) :
    Option (ParallelBufferPoolManager σ × Nat × Option σ) :=
  let num_instances := r.instances_.length
  match GetBufferPoolManager_index page_id num_instances with
  | none => none
  | some k =>
    let (m, ptr) := instances_at r.instances_ k
    some ({ r with instances_ := m }, k, ptr)

/-- The loop of `NewPgImp`, entered with the current value of `loop_counter`.
Returns the router after the call, the result (`none` is `nullptr`) and the
shard calls made, in order; `none` overall when a call goes through a null
pointer.  The increment `starting_index_++` wraps modulo `2 ^ SIZE_BITS`. -/
def NewPgImp_loop (bpm : BufferPoolManager σ Page) (num_instances : Nat)
    (r : ParallelBufferPoolManager σ) (loop_counter : Nat) :
    Option (ParallelBufferPoolManager σ × Option (page_id_t × Page) × List (Nat × Call)) :=
  let loop_counter := loop_counter + 1
  if _h : loop_counter > num_instances then some (r, none, [])
  else
    let k := r.starting_index_ % num_instances
    let (m, buffer_pool_manager) := instances_at r.instances_ k
    let starting_index := (r.starting_index_ + 1) % 2 ^ SIZE_BITS
    match buffer_pool_manager with
    | none => none
    | some sh =>
      let (sh', page) := bpm.NewPage sh
      let r' := { r with instances_ := instances_store m k sh', starting_index_ := starting_index }
      match page with
      | some pg => some (r', some pg, [(k, Call.NewPage)])
      | none =>
        match NewPgImp_loop bpm num_instances r' loop_counter with
        | none => none
        | some (r'', res, calls) => some (r'', res, (k, Call.NewPage) :: calls)
termination_by num_instances + 1 - loop_counter
decreasing_by omega

/-- The method `NewPgImp(page_id*)`. -/
def NewPgImp (bpm : BufferPoolManager σ Page) (r : ParallelBufferPoolManager σ) :
    Option (ParallelBufferPoolManager σ × Option (page_id_t × Page) × List (Nat × Call)) :=
  NewPgImp_loop bpm r.instances_.length r 0

/-- A router whose map holds a shard under each index below `N` and nothing
else, as the constructor leaves it. -/
structure WF (r : ParallelBufferPoolManager σ) (N : Nat) : Prop where
  size : r.instances_.length = N
  present : ∀ k, k < N → ∃ sh, instances_find r.instances_ k = some (some sh)

/-- The index probed by the attempt number `i` of a `NewPgImp` call entered
with cursor `s` on `N` shards, as long as the cursor does not wrap. -/
def probe (s N i : Nat) : Nat × Call := ((s + i) % N, Call.NewPage)

/-- The index probed by the attempt number `i` of a `NewPgImp` call entered
with cursor `s` on `N` shards: the cursor is then `(s + i) mod 2 ^ SIZE_BITS`. -/
def probeW (s N i : Nat) : Nat × Call := (((s + i) % 2 ^ SIZE_BITS) % N, Call.NewPage)

/-- The method `GetPoolSize()`: the product of two `size_t` values, computed
in `size_t` (modulo `2 ^ SIZE_BITS`). -/
def GetPoolSize (r : ParallelBufferPoolManager σ) : Nat :=
  (r.num_instances_ * r.instance_pool_size_) % 2 ^ SIZE_BITS

/-- The call `buffer_pool_manager->op(...)` through the pointer that
`GetBufferPoolManager` returned: the shard under the index looked up makes
the step `op`, and the call is recorded as `c`.  The result is `none` when
the lookup is undefined or the pointer is null. -/
def invoke {α : Type} (found : Option (ParallelBufferPoolManager σ × Nat × Option σ))
    (c : Call) (op : σ → σ × α) :
    Option (ParallelBufferPoolManager σ × α × List (Nat × Call)) :=
  match found with
  | none => none
  | some (_, _, none) => none
  | some (r, k, some sh) =>
    some ({ r with instances_ := instances_store r.instances_ k (op sh).1 }, (op sh).2, [(k, c)])

/-- The method `FetchPgImp(page_id)`. -/
def FetchPgImp (bpm : BufferPoolManager σ Page) (r : ParallelBufferPoolManager σ)
    (page_id : page_id_t) :
    Option (ParallelBufferPoolManager σ × Option Page × List (Nat × Call)) :=
  invoke (GetBufferPoolManager r page_id) (Call.FetchPage page_id)
    (fun buffer_pool_manager => bpm.FetchPage buffer_pool_manager page_id)

/-- The method `UnpinPgImp(page_id, is_dirty)`. -/
def UnpinPgImp (bpm : BufferPoolManager σ Page) (r : ParallelBufferPoolManager σ)
    (page_id : page_id_t) (is_dirty : Bool) :
    Option (ParallelBufferPoolManager σ × Bool × List (Nat × Call)) :=
  invoke (GetBufferPoolManager r page_id) (Call.UnpinPage page_id is_dirty)
    (fun buffer_pool_manager => bpm.UnpinPage buffer_pool_manager page_id is_dirty)

/-- The method `FlushPgImp(page_id)`. -/
def FlushPgImp (bpm : BufferPoolManager σ Page) (r : ParallelBufferPoolManager σ)
    (page_id : page_id_t) :
    Option (ParallelBufferPoolManager σ × Bool × List (Nat × Call)) :=
  invoke (GetBufferPoolManager r page_id) (Call.FlushPage page_id)
    (fun buffer_pool_manager => bpm.FlushPage buffer_pool_manager page_id)

/-- The method `DeletePgImp(page_id)`. -/
def DeletePgImp (bpm : BufferPoolManager σ Page) (r : ParallelBufferPoolManager σ)
    (page_id : page_id_t) :
    Option (ParallelBufferPoolManager σ × Bool × List (Nat × Call)) :=
  invoke (GetBufferPoolManager r page_id) (Call.DeletePage page_id)
    (fun buffer_pool_manager => bpm.DeletePage buffer_pool_manager page_id)

/-- The loop of `FlushAllPgsImp`, entered with the current value of
`instance_index`.  Returns the router after the loop and the shard calls
made, in order; `none` when a call goes through a null pointer. -/
def FlushAllPgsImp_loop (bpm : BufferPoolManager σ Page) (num_instances : Nat)
    (r : ParallelBufferPoolManager σ) (instance_index : Nat) :
    Option (ParallelBufferPoolManager σ × List (Nat × Call)) :=
  if _h : instance_index < num_instances then
    let (m, buffer_pool_manager) := instances_at r.instances_ instance_index
    match buffer_pool_manager with
    | none => none
    | some sh =>
      let r' := { r with
        instances_ := instances_store m instance_index (bpm.FlushAllPages sh) }
      match FlushAllPgsImp_loop bpm num_instances r' (instance_index + 1) with
      | none => none
      | some (r'', calls) => some (r'', (instance_index, Call.FlushAllPages) :: calls)
  else some (r, [])
termination_by num_instances - instance_index
decreasing_by omega

/-- The method `FlushAllPgsImp()`. -/
def FlushAllPgsImp (bpm : BufferPoolManager σ Page) (r : ParallelBufferPoolManager σ) :
    Option (ParallelBufferPoolManager σ × List (Nat × Call)) :=
  FlushAllPgsImp_loop bpm r.instances_.length r 0

/-- A call on the router. -/
inductive RouterOp where
  | NewPage : RouterOp
  | FetchPage : page_id_t → RouterOp
  | UnpinPage : page_id_t → Bool → RouterOp
  | FlushPage : page_id_t → RouterOp
  | DeletePage : page_id_t → RouterOp
  | FlushAllPages : RouterOp
deriving DecidableEq, Repr

/-- What a call on the router returns. -/
inductive RouterResult (Page : Type) where
  | newPage : Option (page_id_t × Page) → RouterResult Page
  | page : Option Page → RouterResult Page
  | flag : Bool → RouterResult Page
  | done : RouterResult Page

/-- One call on the router: the router after it, what it returned and the
shard calls it made; `none` when the call has undefined behaviour. -/
def step (bpm : BufferPoolManager σ Page) (r : ParallelBufferPoolManager σ) :
    RouterOp → Option (ParallelBufferPoolManager σ × RouterResult Page × List (Nat × Call))
  | .NewPage =>
    (NewPgImp bpm r).map (fun x => (x.1, RouterResult.newPage x.2.1, x.2.2))
  | .FetchPage p =>
    (FetchPgImp bpm r p).map (fun x => (x.1, RouterResult.page x.2.1, x.2.2))
  | .UnpinPage p d =>
    (UnpinPgImp bpm r p d).map (fun x => (x.1, RouterResult.flag x.2.1, x.2.2))
  | .FlushPage p =>
    (FlushPgImp bpm r p).map (fun x => (x.1, RouterResult.flag x.2.1, x.2.2))
  | .DeletePage p =>
    (DeletePgImp bpm r p).map (fun x => (x.1, RouterResult.flag x.2.1, x.2.2))
  | .FlushAllPages =>
    (FlushAllPgsImp bpm r).map (fun x => (x.1, RouterResult.done, x.2))

/-- A sequence of calls on the router, from left to right: the router after
them and, call by call, what the call returned and the shard calls it made. -/
def run (bpm : BufferPoolManager σ Page) :
    ParallelBufferPoolManager σ → List RouterOp →
      Option (ParallelBufferPoolManager σ × List (RouterResult Page × List (Nat × Call)))
  | r, [] => some (r, [])
  | r, op :: ops =>
    match step bpm r op with
    | none => none
    | some (r', res, calls) =>
      match run bpm r' ops with
      | none => none
      | some (r'', rest) => some (r'', (res, calls) :: rest)

/-- The router `r'` differs from `r` at most in the state of the shard under
index `k`, which is `sh'`: the cursor, the size fields and every other shard
are those of `r`. -/
def Delegated (r : ParallelBufferPoolManager σ) (k : Nat) (sh' : σ)
    (r' : ParallelBufferPoolManager σ) : Prop :=
  r'.starting_index_ = r.starting_index_ ∧
  r'.instance_pool_size_ = r.instance_pool_size_ ∧
  r'.num_instances_ = r.num_instances_ ∧
  r'.instances_.map Prod.fst = r.instances_.map Prod.fst ∧
  instances_find r'.instances_ k = some (some sh') ∧
  ∀ k', k' ≠ k → instances_find r'.instances_ k' = instances_find r.instances_ k'

end ParallelBufferPoolManager

end bustub


/-! ## Example instances -/

namespace bustub.Example

/-- A replacer of capacity 3 after `Unpin(10); Unpin(20)`. -/
def replacer2 : LRUReplacer := ((LRUReplacer.new 3).Unpin 10).Unpin 20

/-- A replacer of capacity 3 after `Unpin(10); Unpin(20); Unpin(30)`. -/
def replacer3 : LRUReplacer := (((LRUReplacer.new 3).Unpin 10).Unpin 20).Unpin 30

/-- A shard for examples.  Its state is the list of page ids it can still
create; a shard built for index `i` of `n` with `pool_size` frames can create
`i`, `i + n`, `i + 2 n`, ... (`pool_size` of them). -/
def listShard : BufferPoolManager (List Int) Unit where
  create := fun pool_size num_instances instance_index =>
    (List.range pool_size).map (fun j => (instance_index : Int) + j * num_instances)
  NewPage := fun s =>
    match s with
    | [] => ([], none)
    | p :: t => (t, some (p, ()))
  FetchPage := fun s _ => (s, none)
  UnpinPage := fun s _ _ => (s, false)
  FlushPage := fun s _ => (s, false)
  DeletePage := fun s _ => (s, false)
  FlushAllPages := fun s => s

/-- A router over three `listShard`s; shard 0 has no page left, the cursor is
at 3. -/
def router3 : ParallelBufferPoolManager (List Int) :=
  { instances_ := [(0, some []), (1, some [4]), (2, some [2, 5])],
    starting_index_ := 3,
    instance_pool_size_ := 2,
    num_instances_ := 3 }

/-- The router `router3` after a `NewPage` call: shard 0 was probed and failed,
shard 1 created page 4, the cursor is at 5. -/
def router3_after : ParallelBufferPoolManager (List Int) :=
  { instances_ := [(0, some []), (1, some []), (2, some [2, 5])],
    starting_index_ := 5,
    instance_pool_size_ := 2,
    num_instances_ := 3 }

/-- A router over three `listShard`s none of which has a page left; the cursor
is at 7. -/
def router3_full : ParallelBufferPoolManager (List Int) :=
  { instances_ := [(0, some []), (1, some []), (2, some [])],
    starting_index_ := 7,
    instance_pool_size_ := 2,
    num_instances_ := 3 }

/-- A router over three `listShard`s that can each still create two pages; the
cursor is at its largest value, `2^64 - 1`. -/
def router3_top : ParallelBufferPoolManager (List Int) :=
  { instances_ := [(0, some [0, 3]), (1, some [1, 4]), (2, some [2, 5])],
    starting_index_ := 2 ^ 64 - 1,
    instance_pool_size_ := 2,
    num_instances_ := 3 }

/-- A shard for examples whose first `NewPage` fails and whose later ones
create the page id 1, whatever index the shard was built for.  Its state
tells whether `NewPage` has been called. -/
def toggleShard : BufferPoolManager Bool Unit where
  create := fun _ _ _ => false
  NewPage := fun s =>
    match s with
    | false => (true, none)
    | true => (true, some (1, ()))
  FetchPage := fun s _ => (s, none)
  UnpinPage := fun s _ _ => (s, false)
  FlushPage := fun s _ => (s, false)
  DeletePage := fun s _ => (s, false)
  FlushAllPages := fun s => s

/-- A router over three fresh `toggleShard`s with the cursor at its largest
value, `2^64 - 1`. -/
def router3_toggle : ParallelBufferPoolManager Bool :=
  { instances_ := [(0, some false), (1, some false), (2, some false)],
    starting_index_ := 2 ^ 64 - 1,
    instance_pool_size_ := 2,
    num_instances_ := 3 }

/-- A router over two `listShard`s; shard 0 has no page left, shard 1 can
still create pages 1 and 3; the cursor is at 0. -/
def router2 : ParallelBufferPoolManager (List Int) :=
  { instances_ := [(0, some []), (1, some [1, 3])],
    starting_index_ := 0,
    instance_pool_size_ := 2,
    num_instances_ := 2 }

end bustub.Example

namespace bustub

/-! ## Lemmas on the container primitives -/

theorem hashmap_find_eq_none_iff (m : List (frame_id_t × Nat)) (key : frame_id_t) :
    hashmap_find m key = none ↔ ∀ a, (key, a) ∉ m := by
  induction m with
  | nil => simp [hashmap_find]
  | cons e m ih =>
    obtain ⟨k, v⟩ := e
    by_cases hk : k = key
    · subst hk
      simp only [hashmap_find, if_true]
      constructor
      · intro h; cases h
      · intro h; exact absurd (List.mem_cons_self _ _) (h v)
    · simp only [hashmap_find, if_neg hk, ih]
      constructor
      · intro h a ha
        rcases List.mem_cons.1 ha with h1 | h1
        · exact hk (by cases h1; rfl)
        · exact h a h1
      · intro h a ha
        exact h a (List.mem_cons_of_mem _ ha)

theorem hashmap_find_mem {m : List (frame_id_t × Nat)} {key : frame_id_t} {a : Nat}
    (h : hashmap_find m key = some a) : (key, a) ∈ m := by
  induction m with
  | nil => simp [hashmap_find] at h
  | cons e m ih =>
    obtain ⟨k, v⟩ := e
    by_cases hk : k = key
    · subst hk
      simp only [hashmap_find, if_true, Option.some.injEq] at h
      subst h
      exact List.mem_cons_self _ _
    · simp only [hashmap_find, if_neg hk] at h
      exact List.mem_cons_of_mem _ (ih h)

theorem hashmap_find_of_mem {m : List (frame_id_t × Nat)} {key : frame_id_t} {a : Nat}
    (hn : (m.map Prod.fst).Nodup) (h : (key, a) ∈ m) : hashmap_find m key = some a := by
  induction m with
  | nil => cases h
  | cons e m ih =>
    obtain ⟨k, v⟩ := e
    simp only [List.map_cons, List.nodup_cons] at hn
    rcases List.mem_cons.1 h with h1 | h1
    · cases h1
      simp [hashmap_find]
    · have hk : k ≠ key := by
        rintro rfl
        exact hn.1 (List.mem_map.2 ⟨(k, a), h1, rfl⟩)
      simp only [hashmap_find, if_neg hk]
      exact ih hn.2 h1

theorem hashmap_count_ne_zero_iff (m : List (frame_id_t × Nat)) (key : frame_id_t) :
    hashmap_count m key ≠ 0 ↔ ∃ a, (key, a) ∈ m := by
  unfold hashmap_count
  cases hf : hashmap_find m key with
  | none =>
    have := (hashmap_find_eq_none_iff m key).1 hf
    simp only [ne_eq, not_true_eq_false, false_iff, not_exists]
    exact this
  | some a =>
    simp only [ne_eq, one_ne_zero, not_false_eq_true, true_iff]
    exact ⟨a, hashmap_find_mem hf⟩

theorem hashmap_count_eq_zero_iff (m : List (frame_id_t × Nat)) (key : frame_id_t) :
    hashmap_count m key = 0 ↔ hashmap_find m key = none := by
  unfold hashmap_count
  cases hashmap_find m key <;> simp

theorem mem_hashmap_erase {m : List (frame_id_t × Nat)} {key : frame_id_t}
    {e : frame_id_t × Nat} : e ∈ hashmap_erase m key ↔ e ∈ m ∧ e.1 ≠ key := by
  simp [hashmap_erase, List.mem_filter]

theorem hashmap_erase_keys_nodup {m : List (frame_id_t × Nat)} (key : frame_id_t)
    (hn : (m.map Prod.fst).Nodup) : ((hashmap_erase m key).map Prod.fst).Nodup := by
  unfold hashmap_erase
  exact hn.sublist ((List.filter_sublist _).map _)

theorem hashmap_find_erase_self (m : List (frame_id_t × Nat)) (key : frame_id_t) :
    hashmap_find (hashmap_erase m key) key = none := by
  rw [hashmap_find_eq_none_iff]
  intro a ha
  exact (mem_hashmap_erase.1 ha).2 rfl

theorem list_fresh_gt {l : List ListNode} {n : ListNode} (h : n ∈ l) :
    n.addr < list_fresh l := by
  unfold list_fresh
  induction l with
  | nil => cases h
  | cons x l ih =>
    simp only [List.map_cons, List.foldr_cons]
    rcases List.mem_cons.1 h with h1 | h1
    · subst h1
      have := le_max_left n.addr (List.foldr max 0 (List.map ListNode.addr l))
      omega
    · have h2 := ih h1
      have := le_max_right x.addr (List.foldr max 0 (List.map ListNode.addr l))
      omega

theorem list_fresh_not_mem (l : List ListNode) :
    list_fresh l ∉ l.map ListNode.addr := by
  intro h
  obtain ⟨n, hn, he⟩ := List.mem_map.1 h
  have := list_fresh_gt hn
  omega

theorem list_erase_of_mem {l : List ListNode} {a : Nat} {f : frame_id_t}
    (hn : (l.map ListNode.addr).Nodup) (h : (⟨a, f⟩ : ListNode) ∈ l) :
    list_erase l a = some (l.filter (fun n => decide (n ≠ ⟨a, f⟩))) := by
  induction l with
  | nil => cases h
  | cons x l ih =>
    simp only [List.map_cons, List.nodup_cons] at hn
    by_cases hx : x.addr = a
    · have hxe : x = ⟨a, f⟩ := by
        rcases List.mem_cons.1 h with h1 | h1
        · exact h1.symm
        · exact absurd (List.mem_map.2 ⟨_, h1, hx.symm⟩) hn.1
      subst hxe
      have hfil : l.filter (fun n => decide (n ≠ (⟨a, f⟩ : ListNode))) = l := by
        rw [List.filter_eq_self]
        intro n hnl
        have : n.addr ≠ a := fun he => hn.1 (List.mem_map.2 ⟨n, hnl, he⟩)
        simp only [ne_eq, decide_not, Bool.not_eq_eq_eq_not, Bool.not_true, decide_eq_false_iff_not]
        intro he; exact this (by rw [he])
      rw [list_erase, if_pos rfl, List.filter_cons_of_neg (by simp), hfil]
    · have hne : x ≠ ⟨a, f⟩ := fun he => hx (by rw [he])
      have hmem : (⟨a, f⟩ : ListNode) ∈ l := by
        rcases List.mem_cons.1 h with h1 | h1
        · exact absurd h1.symm hne
        · exact h1
      simp only [list_erase, if_neg hx, ih hn.2 hmem]
      rw [List.filter_cons_of_pos]
      simpa using hne


/-! ## Lemmas on the replacer operations -/

namespace LRUReplacer

theorem inv_new (k : Nat) : Inv (new k) :=
  { addr_nodup := List.nodup_nil
    val_nodup := List.nodup_nil
    key_nodup := List.nodup_nil
    index := by intro f a; simp [new]
    capacity := Nat.zero_le _ }

theorem evictable_iff_mem_map (s : LRUReplacer) (f : frame_id_t) :
    s.evictable f ↔ ∃ a, (f, a) ∈ s.frame_hashmap_ :=
  hashmap_count_ne_zero_iff _ _

theorem evictable_iff_mem_frames {s : LRUReplacer} (h : Inv s) (f : frame_id_t) :
    s.evictable f ↔ f ∈ s.frames := by
  rw [evictable_iff_mem_map]
  unfold frames
  constructor
  · rintro ⟨a, ha⟩
    exact List.mem_map.2 ⟨⟨a, f⟩, (h.index f a).1 ha, rfl⟩
  · intro hf
    obtain ⟨n, hn, rfl⟩ := List.mem_map.1 hf
    exact ⟨n.addr, (h.index n.val n.addr).2 hn⟩

theorem Unpin_of_evictable {s : LRUReplacer} {f : frame_id_t} (h : s.evictable f) :
    s.Unpin f = s := by
  unfold evictable at h
  unfold Unpin
  rw [if_pos h]

theorem Unpin_of_full {s : LRUReplacer} (f : frame_id_t) (h : ¬ s.Size < s.num_pages_) :
    s.Unpin f = s := by
  unfold Unpin
  rw [if_neg h]
  split <;> rfl

theorem Unpin_insert {s : LRUReplacer} {f : frame_id_t} (h : ¬ s.evictable f)
    (hc : s.Size < s.num_pages_) :
    s.Unpin f =
      { s with
        frame_list_ := ⟨list_fresh s.frame_list_, f⟩ :: s.frame_list_,
        frame_hashmap_ := (f, list_fresh s.frame_list_) :: s.frame_hashmap_ } := by
  have h0 : hashmap_find s.frame_hashmap_ f = none := by
    rw [← hashmap_count_eq_zero_iff]
    exact not_not.1 h
  unfold evictable at h
  unfold Unpin
  rw [if_neg h, if_pos hc]
  simp only [list_push_front, list_begin, hashmap_emplace, h0]

theorem Inv_Unpin {s : LRUReplacer} (h : Inv s) (f : frame_id_t) : Inv (s.Unpin f) := by
  by_cases he : s.evictable f
  · rw [Unpin_of_evictable he]; exact h
  by_cases hc : s.Size < s.num_pages_
  swap
  · rw [Unpin_of_full f hc]; exact h
  rw [Unpin_insert he hc]
  have hf : f ∉ s.frame_list_.map ListNode.val := fun hm =>
    he ((evictable_iff_mem_frames h f).2 hm)
  have hk : f ∉ s.frame_hashmap_.map Prod.fst := by
    intro hm
    obtain ⟨e, hem, rfl⟩ := List.mem_map.1 hm
    exact he ((evictable_iff_mem_map s e.1).2 ⟨e.2, hem⟩)
  refine
    { addr_nodup := ?_, val_nodup := ?_, key_nodup := ?_, index := ?_, capacity := ?_ }
  · exact List.nodup_cons.2 ⟨list_fresh_not_mem _, h.addr_nodup⟩
  · exact List.nodup_cons.2 ⟨hf, h.val_nodup⟩
  · exact List.nodup_cons.2 ⟨hk, h.key_nodup⟩
  · intro g a
    simp only [List.mem_cons, Prod.mk.injEq, ListNode.mk.injEq]
    rw [h.index g a]
    tauto
  · exact hc

/-- Removing the cell `⟨a, f⟩` from the list and the key `f` from the index
keeps the two containers consistent. -/
theorem Inv_remove {s : LRUReplacer} (h : Inv s) {a : Nat} {f : frame_id_t}
    (hm : (⟨a, f⟩ : ListNode) ∈ s.frame_list_) :
    Inv { s with
      frame_hashmap_ := hashmap_erase s.frame_hashmap_ f,
      frame_list_ := s.frame_list_.filter (fun n => decide (n ≠ ⟨a, f⟩)) } := by
  refine
    { addr_nodup := ?_, val_nodup := ?_, key_nodup := ?_, index := ?_, capacity := ?_ }
  · exact h.addr_nodup.sublist ((List.filter_sublist _).map _)
  · exact h.val_nodup.sublist ((List.filter_sublist _).map _)
  · exact hashmap_erase_keys_nodup f h.key_nodup
  · intro g b
    simp only [mem_hashmap_erase, List.mem_filter, decide_eq_true_eq, h.index g b]
    constructor
    · rintro ⟨h1, h2⟩
      refine ⟨h1, ?_⟩
      intro he
      apply h2
      simpa using congrArg ListNode.val he
    · rintro ⟨h1, h2⟩
      refine ⟨h1, ?_⟩
      intro he
      apply h2
      subst he
      exact List.inj_on_of_nodup_map h.val_nodup h1 hm rfl
  · exact le_trans (List.length_filter_le _ _) h.capacity

theorem Victim_of_nil {s : LRUReplacer} (h : s.frame_list_ = []) : s.Victim = (s, none) := by
  unfold Victim Size
  simp [h]

theorem Victim_of_snoc {s : LRUReplacer} {l : List ListNode} {n : ListNode}
    (h : s.frame_list_ = l ++ [n]) :
    s.Victim =
      ({ s with frame_hashmap_ := hashmap_erase s.frame_hashmap_ n.val, frame_list_ := l },
        some n.val) := by
  unfold Victim Size
  simp [h]

theorem filter_ne_snoc {α : Type} [DecidableEq α] {l : List α} {n : α}
    (hn : (l ++ [n]).Nodup) :
    (l ++ [n]).filter (fun x => decide (x ≠ n)) = l := by
  have hnl : n ∉ l := by
    intro hm
    have := List.nodup_append.1 hn
    exact (List.disjoint_left.1 this.2.2) hm (List.mem_singleton_self n)
  rw [List.filter_append]
  have h1 : l.filter (fun x => decide (x ≠ n)) = l := by
    rw [List.filter_eq_self]
    intro x hx
    simp only [ne_eq, decide_not, Bool.not_eq_eq_eq_not, Bool.not_true, decide_eq_false_iff_not]
    rintro rfl
    exact hnl hx
  rw [h1]
  simp

theorem Inv_Victim {s : LRUReplacer} (h : Inv s) : Inv s.Victim.1 := by
  rcases List.eq_nil_or_concat s.frame_list_ with hl | ⟨l, n, hl⟩
  · rw [Victim_of_nil hl]; exact h
  · rw [List.concat_eq_append] at hl
    rw [Victim_of_snoc hl]
    have hm : (⟨n.addr, n.val⟩ : ListNode) ∈ s.frame_list_ := by
      rw [hl]; simp
    have hnd : (l ++ [n]).Nodup := by
      rw [← hl]; exact List.Nodup.of_map _ h.addr_nodup
    have := Inv_remove h hm
    rw [hl, filter_ne_snoc hnd] at this
    exact this

theorem Pin_of_not_evictable {s : LRUReplacer} {f : frame_id_t} (h : ¬ s.evictable f) :
    s.Pin f = some s := by
  unfold Pin
  rw [if_pos (not_not.1 h)]

theorem Pin_of_evictable {s : LRUReplacer} (h : Inv s) {f : frame_id_t}
    (he : s.evictable f) :
    ∃ a, (⟨a, f⟩ : ListNode) ∈ s.frame_list_ ∧
      s.Pin f = some { s with
        frame_hashmap_ := hashmap_erase s.frame_hashmap_ f,
        frame_list_ := s.frame_list_.filter (fun n => decide (n ≠ ⟨a, f⟩)) } := by
  obtain ⟨a, ha⟩ := (evictable_iff_mem_map s f).1 he
  have hl := (h.index f a).1 ha
  refine ⟨a, hl, ?_⟩
  unfold Pin
  rw [if_neg he, hashmap_find_of_mem h.key_nodup ha]
  simp only [list_erase_of_mem h.addr_nodup hl]

theorem Inv_Pin {s s' : LRUReplacer} (h : Inv s) {f : frame_id_t} (hp : s.Pin f = some s') :
    Inv s' := by
  by_cases he : s.evictable f
  · obtain ⟨a, hl, hpin⟩ := Pin_of_evictable h he
    rw [hpin] at hp
    cases hp
    exact Inv_remove h hl
  · rw [Pin_of_not_evictable he] at hp
    cases hp
    exact h

theorem Pin_isSome {s : LRUReplacer} (h : Inv s) (f : frame_id_t) : ∃ s', s.Pin f = some s' := by
  by_cases he : s.evictable f
  · obtain ⟨a, _, hpin⟩ := Pin_of_evictable h he
    exact ⟨_, hpin⟩
  · exact ⟨s, Pin_of_not_evictable he⟩

theorem frames_filter {l : List ListNode} (hv : (l.map ListNode.val).Nodup) {a : Nat}
    {f : frame_id_t} (hm : (⟨a, f⟩ : ListNode) ∈ l) :
    (l.filter (fun n => decide (n ≠ ⟨a, f⟩))).map ListNode.val =
      (l.map ListNode.val).filter (fun g => decide (g ≠ f)) := by
  rw [List.filter_map]
  congr 1
  apply List.filter_congr
  intro n hn
  simp only [Function.comp_apply, decide_eq_decide]
  constructor
  · intro h1 h2
    exact h1 (List.inj_on_of_nodup_map hv hn hm h2)
  · intro h1 h2
    exact h1 (by rw [h2])

theorem length_filter_ne {l : List ListNode} (hn : l.Nodup) {x : ListNode} (hm : x ∈ l) :
    (l.filter (fun n => decide (n ≠ x))).length + 1 = l.length := by
  have h1 : l.filter (fun n => decide (n ≠ x)) = l.erase x := by
    rw [hn.erase_eq_filter]
    apply List.filter_congr
    intro n _
    by_cases hnx : n = x <;> simp [hnx]
  rw [h1, List.length_erase_of_mem hm]
  have : 0 < l.length := List.length_pos_of_mem hm
  omega

theorem evictable_erase (m : List (frame_id_t × Nat)) (f g : frame_id_t) (n : Nat)
    (l : List ListNode) :
    evictable { num_pages_ := n, frame_list_ := l, frame_hashmap_ := hashmap_erase m f } g ↔
      g ≠ f ∧ ∃ a, (g, a) ∈ m := by
  rw [evictable_iff_mem_map]
  simp only [mem_hashmap_erase]
  constructor
  · rintro ⟨a, h1, h2⟩; exact ⟨h2, a, h1⟩
  · rintro ⟨h2, a, h1⟩; exact ⟨a, h1, h2⟩

theorem iterate_Victim_of_nil {s : LRUReplacer} (h : s.frame_list_ = []) (n : Nat) :
    (fun t : LRUReplacer => t.Victim.1)^[n] s = s := by
  induction n with
  | zero => rfl
  | succ n ih =>
    rw [Function.iterate_succ_apply, Victim_of_nil h]
    exact ih

theorem frames_ne_nil_of_evictable {s : LRUReplacer} (h : Inv s) {g : frame_id_t}
    (hg : s.evictable g) : s.frame_list_ ≠ [] := by
  intro hl
  have := (evictable_iff_mem_frames h g).1 hg
  simp [frames, hl] at this

theorem drain_eq_reverse : ∀ (m : Nat) (s : LRUReplacer), s.Size ≤ m →
    drain m s = s.frames.reverse ∧ (drainState m s).frame_list_ = [] := by
  intro m
  induction m with
  | zero =>
    intro s hs
    have : s.frame_list_ = [] := List.length_eq_zero.1 (Nat.le_zero.1 hs)
    simp [drain, drainState, frames, this]
  | succ m ih =>
    intro s hs
    rcases List.eq_nil_or_concat s.frame_list_ with hl | ⟨l, n, hl⟩
    · simp [drain, drainState, Victim_of_nil hl, frames, hl]
    · rw [List.concat_eq_append] at hl
      have hlen : l.length ≤ m := by
        have : s.frame_list_.length = l.length + 1 := by rw [hl]; simp
        unfold Size at hs
        omega
      have := ih { s with frame_hashmap_ := hashmap_erase s.frame_hashmap_ n.val,
                          frame_list_ := l } hlen
      simp only [drain, drainState, Victim_of_snoc hl, this.1, this.2, frames, hl]
      simp

theorem evictable_Unpin_insert {s : LRUReplacer} {f : frame_id_t} (h : ¬ s.evictable f)
    (hc : s.Size < s.num_pages_) (g : frame_id_t) :
    (s.Unpin f).evictable g ↔ g = f ∨ s.evictable g := by
  rw [Unpin_insert h hc, evictable_iff_mem_map, evictable_iff_mem_map]
  simp only [List.mem_cons, Prod.mk.injEq]
  constructor
  · rintro ⟨a, ⟨h1, _⟩ | h1⟩
    · exact Or.inl h1
    · exact Or.inr ⟨a, h1⟩
  · rintro (h1 | ⟨a, h1⟩)
    · exact ⟨list_fresh s.frame_list_, Or.inl ⟨h1, rfl⟩⟩
    · exact ⟨a, Or.inr h1⟩

theorem Unpin_num_pages (s : LRUReplacer) (f : frame_id_t) :
    (s.Unpin f).num_pages_ = s.num_pages_ := by
  unfold Unpin
  split
  · rfl
  · split <;> rfl

theorem Victim_num_pages (s : LRUReplacer) : s.Victim.1.num_pages_ = s.num_pages_ := by
  rcases List.eq_nil_or_concat s.frame_list_ with hl | ⟨l, n, hl⟩
  · rw [Victim_of_nil hl]
  · rw [List.concat_eq_append] at hl
    rw [Victim_of_snoc hl]

theorem Pin_num_pages {s s' : LRUReplacer} {f : frame_id_t} (h : s.Pin f = some s') :
    s'.num_pages_ = s.num_pages_ := by
  unfold Pin at h
  split at h
  · cases h; rfl
  · split at h
    · cases h
    · split at h
      · cases h
      · cases h; rfl

theorem unpinAll_frames : ∀ (L : List frame_id_t) (s : LRUReplacer),
    (∀ x ∈ L, ¬ s.evictable x) → L.Nodup → s.Size + L.length ≤ s.num_pages_ →
    (unpinAll s L).frames = L.reverse ++ s.frames := by
  intro L
  induction L with
  | nil => intro s _ _ _; simp [unpinAll]
  | cons x L ih =>
    intro s hne hnd hlen
    have hx : ¬ s.evictable x := hne x (List.mem_cons_self _ _)
    have hc : s.Size < s.num_pages_ := by
      simp only [List.length_cons] at hlen; omega
    have hfr : (s.Unpin x).frames = x :: s.frames := by
      rw [Unpin_insert hx hc]; rfl
    have hsz : (s.Unpin x).Size = s.Size + 1 := by
      rw [Unpin_insert hx hc]; rfl
    rw [List.nodup_cons] at hnd
    have := ih (s.Unpin x)
      (by
        intro y hy hev
        rcases (evictable_Unpin_insert hx hc y).1 hev with h1 | h1
        · exact hnd.1 (h1 ▸ hy)
        · exact hne y (List.mem_cons_of_mem _ hy) h1)
      hnd.2
      (by rw [hsz, Unpin_num_pages]; simp only [List.length_cons] at hlen; omega)
    simp only [unpinAll, List.foldl_cons] at this ⊢
    rw [this, hfr]
    simp

theorem exec_inv : ∀ (ops : List Op) (s : LRUReplacer), Inv s →
    ∃ s', exec s ops = some s' ∧ Inv s' ∧ s'.num_pages_ = s.num_pages_ := by
  intro ops
  induction ops with
  | nil => intro s h; exact ⟨s, rfl, h, rfl⟩
  | cons op ops ih =>
    intro s h
    cases op with
    | victim =>
      obtain ⟨s', h1, h2, h3⟩ := ih s.Victim.1 (Inv_Victim h)
      refine ⟨s', ?_, h2, h3.trans (Victim_num_pages s)⟩
      simpa [exec, step] using h1
    | pin f =>
      obtain ⟨t, ht⟩ := Pin_isSome h f
      obtain ⟨s', h1, h2, h3⟩ := ih t (Inv_Pin h ht)
      refine ⟨s', ?_, h2, h3.trans (Pin_num_pages ht)⟩
      simpa [exec, step, ht] using h1
    | unpin f =>
      obtain ⟨s', h1, h2, h3⟩ := ih (s.Unpin f) (Inv_Unpin h f)
      refine ⟨s', ?_, h2, h3.trans (Unpin_num_pages s f)⟩
      simpa [exec, step] using h1

end LRUReplacer

end bustub

/-! ## The recency list against the history of calls -/

namespace bustub.LRUReplacer

theorem exec_append (s : LRUReplacer) (ops1 ops2 : List Op) :
    exec s (ops1 ++ ops2) = (exec s ops1).bind (fun t => exec t ops2) := by
  induction ops1 generalizing s with
  | nil => rfl
  | cons op ops1 ih =>
    simp only [List.cons_append, exec]
    cases hs : s.step op with
    | none => rfl
    | some x => exact ih x.1

theorem exec_snoc {s t : LRUReplacer} {ops : List Op} (h : exec s ops = some t) (op : Op) :
    exec s (ops ++ [op]) = (t.step op).map Prod.fst := by
  rw [exec_append, h]
  simp only [Option.some_bind, exec]
  cases t.step op with
  | none => rfl
  | some x => rfl

theorem evictableSince_snoc {k : Nat} {ops : List Op} {i : Nat} {f : frame_id_t}
    (h : evictableSince k ops i f) (op : Op) {s' : LRUReplacer}
    (hs' : exec (new k) (ops ++ [op]) = some s') (he : s'.evictable f) :
    evictableSince k (ops ++ [op]) i f := by
  obtain ⟨hi, ⟨hget, s0, hs0, hne, hsz⟩, hlater⟩ := h
  refine ⟨by simp; omega, ⟨?_, s0, ?_, hne, hsz⟩, ?_⟩
  · rw [List.getElem?_append_left hi]; exact hget
  · rw [List.take_append_of_le_length (le_of_lt hi)]; exact hs0
  · intro t hit ht
    simp only [List.length_append, List.length_singleton] at ht
    by_cases htl : t ≤ ops.length
    · rw [List.take_append_of_le_length htl]
      exact hlater t hit htl
    · have : t = (ops ++ [op]).length := by simp; omega
      rw [this, List.take_length]
      exact ⟨s', hs', he⟩

theorem History_filter {k : Nat} {ops : List Op} {s s' : LRUReplacer} (op : Op)
    (hh : History k ops s) (hinv : Inv s')
    (hs' : exec (new k) (ops ++ [op]) = some s') (q : frame_id_t → Bool)
    (hfr : s'.frames = s.frames.filter q) : History k (ops ++ [op]) s' := by
  obtain ⟨ps, h1, h2, h3⟩ := hh
  have hmap : (ps.filter (q ∘ Prod.fst)).map Prod.fst = s'.frames := by
    rw [hfr, ← h1, List.filter_map]
  refine ⟨ps.filter (q ∘ Prod.fst), hmap, ?_, ?_⟩
  · exact h2.sublist ((List.filter_sublist _).map _)
  · intro p hp
    have hp1 : p ∈ ps := (List.mem_filter.1 hp).1
    have hp2 : p.1 ∈ s'.frames := by
      rw [← hmap]; exact List.mem_map.2 ⟨p, hp, rfl⟩
    exact evictableSince_snoc (h3 p hp1) op hs' ((evictable_iff_mem_frames hinv p.1).2 hp2)

theorem History_same {k : Nat} {ops : List Op} {s : LRUReplacer} (op : Op)
    (hh : History k ops s) (hinv : Inv s)
    (hs' : exec (new k) (ops ++ [op]) = some s) : History k (ops ++ [op]) s :=
  History_filter op hh hinv hs' (fun _ => true) (by simp)

theorem History_insert {k : Nat} {ops : List Op} {s : LRUReplacer} {f : frame_id_t}
    (hh : History k ops s) (hs : exec (new k) ops = some s)
    (hne : ¬ s.evictable f) (hc : s.Size < s.num_pages_) :
    History k (ops ++ [Op.unpin f]) (s.Unpin f) := by
  have hs' : exec (new k) (ops ++ [Op.unpin f]) = some (s.Unpin f) := by
    rw [exec_snoc hs]; rfl
  obtain ⟨ps, h1, h2, h3⟩ := hh
  refine ⟨(f, ops.length) :: ps, ?_, ?_, ?_⟩
  · rw [List.map_cons, h1, Unpin_insert hne hc]; rfl
  · rw [List.map_cons, List.pairwise_cons]
    refine ⟨?_, h2⟩
    intro b hb
    obtain ⟨p, hp, rfl⟩ := List.mem_map.1 hb
    exact (h3 p hp).1
  · intro p hp
    rcases List.mem_cons.1 hp with rfl | hp
    · refine ⟨by simp, ⟨List.getElem?_concat_length _ _, s, ?_, hne, hc⟩, ?_⟩
      · rw [List.take_append_of_le_length (le_refl _), List.take_length]; exact hs
      · intro t hit ht
        simp only [List.length_append, List.length_singleton] at ht
        have : t = (ops ++ [Op.unpin f]).length := by simp; omega
        rw [this, List.take_length]
        exact ⟨_, hs', (evictable_Unpin_insert hne hc f).2 (Or.inl rfl)⟩
    · refine evictableSince_snoc (h3 p hp) _ hs' ?_
      refine (evictable_Unpin_insert hne hc p.1).2 (Or.inr ?_)
      have : p.1 ∈ s.frames := by rw [← h1]; exact List.mem_map.2 ⟨p, hp, rfl⟩
      obtain ⟨s0, hs0, he0⟩ := (h3 p hp).2.2 ops.length (h3 p hp).1 (le_refl _)
      rw [List.take_length, hs] at hs0
      cases hs0
      exact he0

theorem exec_history (k : Nat) (ops : List Op) :
    ∃ s, exec (new k) ops = some s ∧ Inv s ∧ History k ops s := by
  induction ops using List.reverseRecOn with
  | nil =>
    exact ⟨new k, rfl, inv_new k, [], rfl, List.Pairwise.nil, fun p hp => by cases hp⟩
  | append_singleton ops op ih =>
    obtain ⟨s, hs, hinv, hh⟩ := ih
    cases op with
    | victim =>
      have hex : exec (new k) (ops ++ [Op.victim]) = some s.Victim.1 := by
        rw [exec_snoc hs]; rfl
      refine ⟨s.Victim.1, hex, Inv_Victim hinv, ?_⟩
      rcases List.eq_nil_or_concat s.frame_list_ with hl | ⟨l, n, hl⟩
      · rw [Victim_of_nil hl] at hex ⊢
        exact History_same _ hh hinv hex
      · rw [List.concat_eq_append] at hl
        refine History_filter _ hh (Inv_Victim hinv) hex (fun g => decide (g ≠ n.val)) ?_
        rw [Victim_of_snoc hl]
        have hnd : (l.map ListNode.val ++ [n.val]).Nodup := by
          have := hinv.val_nodup
          rw [hl] at this
          simpa using this
        simp only [frames, hl, List.map_append, List.map_cons, List.map_nil]
        exact (filter_ne_snoc hnd).symm
    | pin f =>
      by_cases he : s.evictable f
      · obtain ⟨a, hl, hpin⟩ := Pin_of_evictable hinv he
        have hex : exec (new k) (ops ++ [Op.pin f]) =
            some { s with
              frame_hashmap_ := hashmap_erase s.frame_hashmap_ f,
              frame_list_ := s.frame_list_.filter (fun n => decide (n ≠ ⟨a, f⟩)) } := by
          rw [exec_snoc hs]; simp only [step, hpin]; rfl
        exact ⟨_, hex, Inv_remove hinv hl,
          History_filter _ hh (Inv_remove hinv hl) hex (fun g => decide (g ≠ f))
            (frames_filter hinv.val_nodup hl)⟩
      · have hex : exec (new k) (ops ++ [Op.pin f]) = some s := by
          rw [exec_snoc hs]; simp only [step, Pin_of_not_evictable he]; rfl
        exact ⟨s, hex, hinv, History_same _ hh hinv hex⟩
    | unpin f =>
      have hex : exec (new k) (ops ++ [Op.unpin f]) = some (s.Unpin f) := by
        rw [exec_snoc hs]; rfl
      refine ⟨s.Unpin f, hex, Inv_Unpin hinv f, ?_⟩
      by_cases he : s.evictable f
      · rw [Unpin_of_evictable he] at hex ⊢
        exact History_same _ hh hinv hex
      · by_cases hc : s.Size < s.num_pages_
        · exact History_insert hh hs he hc
        · rw [Unpin_of_full f hc] at hex ⊢
          exact History_same _ hh hinv hex

/-- In the state reached by `ops`, the frame at the back of the recency list
was inserted by an older call than every other evictable frame. -/
theorem back_is_oldest {k : Nat} {ops : List Op} {s : LRUReplacer}
    (hs : exec (new k) ops = some s) {f : frame_id_t} (hv : s.Victim.2 = some f) :
    ∃ i, evictableSince k ops i f ∧
      ∀ g, s.evictable g → g ≠ f → ∃ j, i < j ∧ evictableSince k ops j g := by
  obtain ⟨s0, hs0, hinv, ps, h1, h2, h3⟩ := exec_history k ops
  rw [hs] at hs0
  cases hs0
  rcases List.eq_nil_or_concat s.frame_list_ with hl | ⟨l, n, hl⟩
  · rw [Victim_of_nil hl] at hv; cases hv
  rw [List.concat_eq_append] at hl
  rw [Victim_of_snoc hl] at hv
  simp only [Option.some.injEq] at hv
  subst hv
  have hfr : s.frames = l.map ListNode.val ++ [n.val] := by simp [frames, hl]
  rcases List.eq_nil_or_concat ps with hps | ⟨ps0, p, hps⟩
  · rw [hps, hfr] at h1; simp at h1
  rw [List.concat_eq_append] at hps
  subst hps
  rw [hfr, List.map_append, List.map_cons, List.map_nil] at h1
  have hlen : (ps0.map Prod.fst).length = (l.map ListNode.val).length := by
    have := congrArg List.length h1
    simp only [List.length_append, List.length_singleton] at this
    omega
  obtain ⟨h1a, h1b⟩ := List.append_inj h1 hlen
  simp only [List.cons.injEq, and_true] at h1b
  refine ⟨p.2, ?_, ?_⟩
  · have := h3 p (by simp)
    rwa [h1b] at this
  · intro g hg hgn
    have hgm : g ∈ s.frames := (evictable_iff_mem_frames hinv g).1 hg
    rw [hfr, List.mem_append, List.mem_singleton] at hgm
    rcases hgm with hgm | hgm
    swap
    · exact absurd hgm hgn
    rw [← h1a] at hgm
    obtain ⟨pg, hpg, rfl⟩ := List.mem_map.1 hgm
    refine ⟨pg.2, ?_, h3 pg (by simp [hpg])⟩
    rw [List.map_append, List.pairwise_append] at h2
    exact h2.2.2 pg.2 (List.mem_map.2 ⟨pg, hpg, rfl⟩) p.2 (by simp)

end bustub.LRUReplacer

/-! ## Consistency of the example replacers -/

namespace bustub.Example

theorem inv_replacer2 : replacer2.Inv :=
  LRUReplacer.Inv_Unpin (LRUReplacer.Inv_Unpin (LRUReplacer.inv_new 3) 10) 20

theorem inv_replacer3 : replacer3.Inv :=
  LRUReplacer.Inv_Unpin inv_replacer2 30

end bustub.Example

/-! ## The replacer contracts -/

namespace bustub.LRUReplacer

/-- C1. `Victim` on a consistent replacer state.  When some frame is
evictable, `Victim` returns `true` with the frame `f` at the back of the
recency order (the least recently unpinned one): the order before the call is
the order after it followed by `f`, so exactly `f` is removed and the others
keep their relative order; `f` was evictable and is not any more, every other
frame keeps its status, `Size` drops by one, and a frame unpinned later never
overtakes `f` (after `Unpin(g)` of a new frame `Victim` still returns `f`).
When no frame is evictable, `Victim` returns `false` and leaves the state
unchanged, and this stays so after any number of further calls.  Against the
history of calls: whenever `s` is the state reached from a fresh replacer by a
sequence of calls, the frame `Victim` returns owes its membership to an
inserting `Unpin` that is older than the inserting `Unpin` of every other
evictable frame. -/
theorem Victim_contract (s : LRUReplacer) (h : Inv s) :
    ((∃ g, s.evictable g) →
      ∃ f, s.Victim.2 = some f ∧
        s.frames = s.Victim.1.frames ++ [f] ∧
        s.evictable f ∧ ¬ s.Victim.1.evictable f ∧
        (∀ g, g ≠ f → (s.Victim.1.evictable g ↔ s.evictable g)) ∧
        s.Victim.1.Size + 1 = s.Size ∧
        s.Victim.1.num_pages_ = s.num_pages_ ∧
        Inv s.Victim.1 ∧
        (∀ g, ¬ s.evictable g → (s.Unpin g).Victim.2 = some f)) ∧
    ((∀ g, ¬ s.evictable g) →
      s.Victim = (s, none) ∧
        ∀ n, ((fun t : LRUReplacer => t.Victim.1)^[n] s).Victim = (s, none)) ∧
    (∀ k ops, exec (new k) ops = some s → ∀ f, s.Victim.2 = some f →
      ∃ i, evictableSince k ops i f ∧
        ∀ g, s.evictable g → g ≠ f → ∃ j, i < j ∧ evictableSince k ops j g) := by
  refine ⟨?_, ?_, fun k ops hs f hv => back_is_oldest hs hv⟩
  · rintro ⟨g, hg⟩
    have hne := frames_ne_nil_of_evictable h hg
    rcases List.eq_nil_or_concat s.frame_list_ with hl | ⟨l, n, hl⟩
    · exact absurd hl hne
    rw [List.concat_eq_append] at hl
    have hinv := Inv_Victim h
    have hmem : n ∈ s.frame_list_ := by rw [hl]; simp
    have hev : s.evictable n.val :=
      (evictable_iff_mem_frames h n.val).2 (List.mem_map.2 ⟨n, hmem, rfl⟩)
    rw [Victim_of_snoc hl] at hinv ⊢
    refine ⟨n.val, rfl, ?_, hev, ?_, ?_, ?_, rfl, hinv, ?_⟩
    · simp [frames, hl]
    · rw [evictable_erase]; exact fun hc => hc.1 rfl
    · intro g' hg'
      rw [evictable_erase, evictable_iff_mem_map]
      exact ⟨fun hc => hc.2, fun hc => ⟨hg', hc⟩⟩
    · simp [Size, hl]
    · intro g' hg'
      by_cases hc : s.Size < s.num_pages_
      · have hl' : (s.Unpin g').frame_list_ =
            (⟨list_fresh s.frame_list_, g'⟩ :: l) ++ [n] := by
          rw [Unpin_insert hg' hc]; simp [hl]
        rw [Victim_of_snoc hl']
      · rw [Unpin_of_full g' hc, Victim_of_snoc hl]
  · intro hnone
    have hl : s.frame_list_ = [] := by
      cases hfl : s.frame_list_ with
      | nil => rfl
      | cons n l =>
        exfalso
        apply hnone n.val
        rw [evictable_iff_mem_frames h]
        simp [frames, hfl]
    refine ⟨Victim_of_nil hl, fun n => ?_⟩
    rw [iterate_Victim_of_nil hl, Victim_of_nil hl]

/-- Witness of C1: on the replacer holding 20 and 10, reached by
`Unpin(10); Unpin(20)`, a frame is evictable and the first and third parts
apply; on a fresh replacer none is and the second part applies. -/
theorem Victim_contract_witness :
    (Example.replacer2.Inv ∧ (∃ g, Example.replacer2.evictable g) ∧
      ∃ f, Example.replacer2.Victim.2 = some f ∧
        Example.replacer2.frames = Example.replacer2.Victim.1.frames ++ [f] ∧
        Example.replacer2.evictable f ∧ ¬ Example.replacer2.Victim.1.evictable f ∧
        (∀ g, g ≠ f → (Example.replacer2.Victim.1.evictable g ↔ Example.replacer2.evictable g)) ∧
        Example.replacer2.Victim.1.Size + 1 = Example.replacer2.Size ∧
        Example.replacer2.Victim.1.num_pages_ = Example.replacer2.num_pages_ ∧
        Inv Example.replacer2.Victim.1 ∧
        (∀ g, ¬ Example.replacer2.evictable g → (Example.replacer2.Unpin g).Victim.2 = some f)) ∧
    ((new 3).Inv ∧ (∀ g, ¬ (new 3).evictable g) ∧
      (new 3).Victim = (new 3, none) ∧
        ∀ n, ((fun t : LRUReplacer => t.Victim.1)^[n] (new 3)).Victim = (new 3, none)) ∧
    (exec (new 3) [Op.unpin 10, Op.unpin 20] = some Example.replacer2 ∧
      Example.replacer2.Victim.2 = some 10 ∧
      ∃ i, evictableSince 3 [Op.unpin 10, Op.unpin 20] i 10 ∧
        ∀ g, Example.replacer2.evictable g → g ≠ 10 →
          ∃ j, i < j ∧ evictableSince 3 [Op.unpin 10, Op.unpin 20] j g) :=
  ⟨⟨Example.inv_replacer2, ⟨10, by decide⟩,
      (Victim_contract Example.replacer2 Example.inv_replacer2).1 ⟨10, by decide⟩⟩,
    ⟨inv_new 3, fun g => by simp [evictable, new, hashmap_count, hashmap_find],
      (Victim_contract (new 3) (inv_new 3)).2.1
        (fun g => by simp [evictable, new, hashmap_count, hashmap_find])⟩,
    ⟨by decide, by decide,
      (Victim_contract Example.replacer2 Example.inv_replacer2).2.2 3
        [Op.unpin 10, Op.unpin 20] (by decide) 10 (by decide)⟩⟩

/-- C2. `Unpin` of a frame that is not evictable, below capacity, inserts it at
the most-recently-unpinned end: `Size` grows by one, the frame becomes
evictable at the front of the recency order, and calling `Victim` until it
returns `false` yields the frames it would have yielded before the `Unpin`,
followed by `f`.  (`drain m` makes at most `m` calls; with `m` at least the
size, the call after the last frame returns `false`.) -/
theorem Unpin_inserts_most_recent (s : LRUReplacer) (f : frame_id_t)
    (hf : ¬ s.evictable f) (hc : s.Size < s.num_pages_) :
    (s.Unpin f).Size = s.Size + 1 ∧
    (s.Unpin f).frames = f :: s.frames ∧
    (s.Unpin f).evictable f ∧
    ∀ m m', s.Size ≤ m → s.Size + 1 ≤ m' →
      drain m' (s.Unpin f) = drain m s ++ [f] ∧
      (drainState m s).Victim.2 = none ∧
      (drainState m' (s.Unpin f)).Victim.2 = none := by
  have hfr : (s.Unpin f).frames = f :: s.frames := by
    rw [Unpin_insert hf hc]; rfl
  have hsz : (s.Unpin f).Size = s.Size + 1 := by
    rw [Unpin_insert hf hc]; rfl
  refine ⟨hsz, hfr, (evictable_Unpin_insert hf hc f).2 (Or.inl rfl), ?_⟩
  intro m m' hm hm'
  have h1 := drain_eq_reverse m s hm
  have h2 := drain_eq_reverse m' (s.Unpin f) (by rw [hsz]; exact hm')
  refine ⟨?_, ?_, ?_⟩
  · rw [h1.1, h2.1, hfr]; simp
  · rw [Victim_of_nil h1.2]
  · rw [Victim_of_nil h2.2]

/-- Witness of C2: `Unpin(30)` on the replacer of capacity 3 holding 20 and 10. -/
theorem Unpin_inserts_most_recent_witness :
    ¬ Example.replacer2.evictable 30 ∧ Example.replacer2.Size < Example.replacer2.num_pages_ ∧
    (Example.replacer2.Unpin 30).Size = Example.replacer2.Size + 1 ∧
    (Example.replacer2.Unpin 30).frames = 30 :: Example.replacer2.frames ∧
    (Example.replacer2.Unpin 30).evictable 30 ∧
    ∀ m m', Example.replacer2.Size ≤ m → Example.replacer2.Size + 1 ≤ m' →
      drain m' (Example.replacer2.Unpin 30) = drain m Example.replacer2 ++ [30] ∧
      (drainState m Example.replacer2).Victim.2 = none ∧
      (drainState m' (Example.replacer2.Unpin 30)).Victim.2 = none :=
  ⟨by decide, by decide,
    Unpin_inserts_most_recent Example.replacer2 30 (by decide) (by decide)⟩

/-- C3. `Unpin` at capacity is dropped: when `Size() == num_pages_` and `f` is
not evictable, `Unpin(f)` returns the state unchanged (same index, same order,
same size).  Scenario: with capacity 3, after `Unpin(10)`, `Unpin(20)`,
`Unpin(30)`, `Unpin(40)` the size is 3, `Victim` returns 10 and the size is
then 2. -/
theorem Unpin_at_capacity_dropped (s : LRUReplacer) (f : frame_id_t)
    (hfull : s.Size = s.num_pages_) (hf : ¬ s.evictable f) :
    s.Unpin f = s ∧
    (((((new 3).Unpin 10).Unpin 20).Unpin 30).Unpin 40).Size = 3 ∧
    (((((new 3).Unpin 10).Unpin 20).Unpin 30).Unpin 40).Victim.2 = some 10 ∧
    (((((new 3).Unpin 10).Unpin 20).Unpin 30).Unpin 40).Victim.1.Size = 2 := by
  have _ := hf
  refine ⟨Unpin_of_full f (by omega), ?_, ?_, ?_⟩ <;> decide

/-- Witness of C3: `Unpin(40)` on the full replacer of capacity 3. -/
theorem Unpin_at_capacity_dropped_witness :
    Example.replacer3.Size = Example.replacer3.num_pages_ ∧
    ¬ Example.replacer3.evictable 40 ∧
    Example.replacer3.Unpin 40 = Example.replacer3 :=
  ⟨by decide, by decide,
    (Unpin_at_capacity_dropped Example.replacer3 40 (by decide) (by decide)).1⟩

/-- C4. `Unpin` of a frame that is already evictable changes nothing (the
state, hence the members, the order and the size, is the same); so for every
state and frame a second `Unpin(f)` right after `Unpin(f)` leaves the state of
the first, and `f` keeps its place in the recency order. -/
theorem Unpin_idempotent (s : LRUReplacer) (f : frame_id_t) :
    (s.evictable f → s.Unpin f = s) ∧
    (s.Unpin f).Unpin f = s.Unpin f ∧
    ((s.Unpin f).Unpin f).frames = (s.Unpin f).frames := by
  have h2 : (s.Unpin f).Unpin f = s.Unpin f := by
    by_cases he : s.evictable f
    · rw [Unpin_of_evictable he, Unpin_of_evictable he]
    · by_cases hc : s.Size < s.num_pages_
      · exact Unpin_of_evictable ((evictable_Unpin_insert he hc f).2 (Or.inl rfl))
      · rw [Unpin_of_full f hc, Unpin_of_full f hc]
  exact ⟨fun he => Unpin_of_evictable he, h2, by rw [h2]⟩

/-- Witness of C4: frame 10 is evictable in the replacer holding 20 and 10. -/
theorem Unpin_idempotent_witness :
    Example.replacer2.evictable 10 ∧ Example.replacer2.Unpin 10 = Example.replacer2 :=
  ⟨by decide, (Unpin_idempotent Example.replacer2 10).1 (by decide)⟩

/-- C5. `Pin` on a consistent replacer state.  If `f` is evictable, `Pin(f)`
completes, `f` is no longer evictable, `Size` has dropped by exactly one, and
the recency order is the old one with `f` filtered out (every other frame is
still there, in the same relative order, with the same status).  If `f` is
not evictable, `Pin(f)` returns the state unchanged. -/
theorem Pin_contract (s : LRUReplacer) (h : Inv s) (f : frame_id_t) :
    (s.evictable f →
      ∃ s', s.Pin f = some s' ∧ ¬ s'.evictable f ∧ s'.Size + 1 = s.Size ∧
        s'.frames = s.frames.filter (fun g => decide (g ≠ f)) ∧
        (∀ g, g ≠ f → (s'.evictable g ↔ s.evictable g)) ∧
        s'.num_pages_ = s.num_pages_ ∧ Inv s') ∧
    (¬ s.evictable f → s.Pin f = some s) := by
  refine ⟨fun he => ?_, fun he => Pin_of_not_evictable he⟩
  obtain ⟨a, hl, hpin⟩ := Pin_of_evictable h he
  refine ⟨_, hpin, ?_, ?_, ?_, ?_, rfl, Inv_remove h hl⟩
  · rw [evictable_erase]; exact fun hc => hc.1 rfl
  · exact length_filter_ne (List.Nodup.of_map _ h.addr_nodup) hl
  · exact frames_filter h.val_nodup hl
  · intro g hg
    rw [evictable_erase, evictable_iff_mem_map]
    exact ⟨fun hc => hc.2, fun hc => ⟨hg, hc⟩⟩

/-- Witness of C5: `Pin(20)` (evictable) and `Pin(7)` (not evictable) on the
replacer holding 30, 20 and 10. -/
theorem Pin_contract_witness :
    Example.replacer3.Inv ∧ Example.replacer3.evictable 20 ∧ ¬ Example.replacer3.evictable 7 ∧
    (∃ s', Example.replacer3.Pin 20 = some s' ∧ ¬ s'.evictable 20 ∧
        s'.Size + 1 = Example.replacer3.Size ∧
        s'.frames = Example.replacer3.frames.filter (fun g => decide (g ≠ 20)) ∧
        (∀ g, g ≠ 20 → (s'.evictable g ↔ Example.replacer3.evictable g)) ∧
        s'.num_pages_ = Example.replacer3.num_pages_ ∧ Inv s') ∧
    Example.replacer3.Pin 7 = some Example.replacer3 :=
  ⟨Example.inv_replacer3, by decide, by decide,
    (Pin_contract Example.replacer3 Example.inv_replacer3 20).1 (by decide),
    (Pin_contract Example.replacer3 Example.inv_replacer3 7).2 (by decide)⟩

/-- C6. Eviction order matches insertion order: for pairwise distinct frame
ids `L`, no more of them than the capacity `k`, after `Unpin` on the elements
of `L` in order on a fresh replacer, `|L|` calls of `Victim` return exactly
the elements of `L` in order, and the next `Victim` returns `false`. -/
theorem eviction_order_is_insertion_order (k : Nat) (L : List frame_id_t)
    (hnd : L.Nodup) (hlen : L.length ≤ k) :
    drain L.length (unpinAll (new k) L) = L ∧
    (drainState L.length (unpinAll (new k) L)).Victim.2 = none := by
  have hfr : (unpinAll (new k) L).frames = L.reverse := by
    have := unpinAll_frames L (new k)
      (fun x _ => by simp [evictable, new, hashmap_count, hashmap_find]) hnd
      (by simpa [new, Size] using hlen)
    simpa [new, frames] using this
  have hsz : (unpinAll (new k) L).Size ≤ L.length := by
    have : (unpinAll (new k) L).Size = (unpinAll (new k) L).frames.length := by
      simp [Size, frames]
    rw [this, hfr]; simp
  have h := drain_eq_reverse L.length _ hsz
  refine ⟨?_, ?_⟩
  · rw [h.1, hfr]; simp
  · rw [Victim_of_nil h.2]

/-- Witness of C6: `Unpin(1); Unpin(2); Unpin(3)` then `Victim` yields 1, 2, 3
and then nothing. -/
theorem eviction_order_is_insertion_order_witness :
    ([1, 2, 3] : List frame_id_t).Nodup ∧ ([1, 2, 3] : List frame_id_t).length ≤ 3 ∧
    drain 3 ((((new 3).Unpin 1).Unpin 2).Unpin 3) = [1, 2, 3] ∧
    (drainState 3 ((((new 3).Unpin 1).Unpin 2).Unpin 3)).Victim.2 = none :=
  ⟨by decide, by decide,
    eviction_order_is_insertion_order 3 [1, 2, 3] (by decide) (by decide)⟩

/-- C7. Capacity and uniqueness invariant: every sequence of `Victim`, `Pin`
and `Unpin` calls on a fresh replacer of capacity `k` runs to completion, and
in the state after each prefix of the sequence `Size() <= k`, no frame id
occurs twice in the recency list, no key occurs twice in the index, and the
index holds exactly the frames of the list. -/
theorem capacity_uniqueness_invariant (k : Nat) (ops : List Op) (n : Nat) :
    ∃ s, exec (new k) (ops.take n) = some s ∧ s.Size ≤ k ∧ s.frames.Nodup ∧
      (s.frame_hashmap_.map Prod.fst).Nodup ∧ (∀ f, s.evictable f ↔ f ∈ s.frames) := by
  obtain ⟨s, h1, h2, h3⟩ := exec_inv (ops.take n) (new k) (inv_new k)
  refine ⟨s, h1, ?_, h2.val_nodup, h2.key_nodup, evictable_iff_mem_frames h2⟩
  have := h2.capacity
  rw [h3] at this
  exact this

end bustub.LRUReplacer

/-! ## Lemmas on the router -/

namespace bustub

theorem instances_find_store {σ : Type} (m : List (Nat × Option σ)) (key : Nat) (v : σ)
    (k : Nat) :
    instances_find (instances_store m key v) k =
      if k = key then (instances_find m key).map (fun _ => some v) else instances_find m k := by
  induction m with
  | nil => simp [instances_store, instances_find]
  | cons e m ih =>
    obtain ⟨k0, w⟩ := e
    by_cases h0 : k0 = key
    · subst h0
      by_cases hk : k = k0
      · subst hk; simp [instances_store, instances_find]
      · have hk' : ¬ k0 = k := fun h => hk h.symm
        simp [instances_store, instances_find, hk, hk']
    · by_cases hk : k = key
      · subst hk
        simp [instances_store, instances_find, h0, ih]
      · by_cases hk0 : k0 = k
        · simp [instances_store, instances_find, h0, hk, hk0]
        · simp [instances_store, instances_find, h0, hk, hk0, ih]

theorem instances_store_length {σ : Type} (m : List (Nat × Option σ)) (key : Nat) (v : σ) :
    (instances_store m key v).length = m.length := by
  induction m with
  | nil => rfl
  | cons e m ih =>
    obtain ⟨k0, w⟩ := e
    by_cases h0 : k0 = key <;> simp [instances_store, h0, ih]

theorem instances_at_of_find {σ : Type} {m : List (Nat × Option σ)} {key : Nat}
    {v : Option σ} (h : instances_find m key = some v) : instances_at m key = (m, v) := by
  simp [instances_at, h]

theorem instances_find_append_of_some {σ : Type} {m : List (Nat × Option σ)} {key : Nat}
    {v : Option σ} (m' : List (Nat × Option σ)) (h : instances_find m key = some v) :
    instances_find (m ++ m') key = some v := by
  induction m with
  | nil => simp [instances_find] at h
  | cons e m ih =>
    obtain ⟨k0, w⟩ := e
    by_cases h0 : k0 = key
    · simpa [instances_find, h0] using h
    · simp only [instances_find, h0, if_false, List.cons_append] at h ⊢
      exact ih h

theorem instances_find_append_of_none {σ : Type} {m : List (Nat × Option σ)} {key : Nat}
    (m' : List (Nat × Option σ)) (h : instances_find m key = none) :
    instances_find (m ++ m') key = instances_find m' key := by
  induction m with
  | nil => rfl
  | cons e m ih =>
    obtain ⟨k0, w⟩ := e
    by_cases h0 : k0 = key
    · simp [instances_find, h0] at h
    · simp only [instances_find, h0, if_false, List.cons_append] at h ⊢
      exact ih h

theorem instances_find_map_range {σ : Type} (g : Nat → σ) (n k : Nat) :
    instances_find ((List.range n).map (fun i => (i, some (g i)))) k =
      if k < n then some (some (g k)) else none := by
  induction n with
  | zero => simp [instances_find]
  | succ n ih =>
    rw [List.range_succ, List.map_append]
    by_cases hk : k < n
    · rw [instances_find_append_of_some _ (by rw [ih, if_pos hk])]
      rw [if_pos (by omega)]
    · rw [instances_find_append_of_none _ (by rw [ih, if_neg hk])]
      by_cases hkn : n = k
      · subst hkn; simp [instances_find]
      · have : ¬ k < n + 1 := by omega
        simp [instances_find, hkn, this]

theorem foldl_emplace_range {σ : Type} (g : Nat → σ) (n : Nat) :
    (List.range n).foldl (fun m i => instances_emplace m i (some (g i))) [] =
      (List.range n).map (fun i => (i, some (g i))) := by
  induction n with
  | zero => rfl
  | succ n ih =>
    rw [List.range_succ, List.foldl_append, ih, List.map_append]
    have : instances_find ((List.range n).map (fun i => (i, some (g i)))) n = none := by
      rw [instances_find_map_range]; simp
    simp [instances_emplace, this]

theorem add_mod_ne {s a b N : Nat} (ha : a < b) (hb : b < N) :
    (s + a) % N ≠ (s + b) % N := by
  intro h
  have h1 : a % N = b % N := Nat.ModEq.add_left_cancel' s h
  rw [Nat.mod_eq_of_lt (by omega), Nat.mod_eq_of_lt hb] at h1
  omega

namespace ParallelBufferPoolManager

variable {σ Page : Type}

theorem WF_new (bpm : BufferPoolManager σ Page) (N pool_size : Nat) :
    WF (new bpm N pool_size) N := by
  constructor
  · simp [new, foldl_emplace_range]
  · intro k hk
    refine ⟨bpm.create pool_size N k, ?_⟩
    simp only [new, foldl_emplace_range]
    rw [instances_find_map_range (fun i => bpm.create pool_size N i), if_pos hk]


theorem pow_size_pos : 0 < 2 ^ SIZE_BITS := Nat.pos_pow_of_pos _ (by decide)

theorem NewPgImp_loop_break (bpm : BufferPoolManager σ Page) {N c : Nat}
    (r : ParallelBufferPoolManager σ) (h : N < c + 1) :
    NewPgImp_loop bpm N r c = some (r, none, []) := by
  rw [NewPgImp_loop]
  simp [h]

theorem NewPgImp_loop_hit (bpm : BufferPoolManager σ Page) {N c : Nat}
    {r : ParallelBufferPoolManager σ} (h : c < N) {sh : σ}
    (hf : instances_find r.instances_ (r.starting_index_ % N) = some (some sh))
    {pg : page_id_t × Page} (hp : (bpm.NewPage sh).2 = some pg) :
    NewPgImp_loop bpm N r c =
      some ({ r with
          instances_ := instances_store r.instances_ (r.starting_index_ % N) (bpm.NewPage sh).1,
          starting_index_ := (r.starting_index_ + 1) % 2 ^ SIZE_BITS },
        some pg, [(r.starting_index_ % N, Call.NewPage)]) := by
  rw [NewPgImp_loop]
  have h' : ¬ c + 1 > N := by omega
  simp only [h', dite_false, instances_at_of_find hf]
  rw [hp]

theorem NewPgImp_loop_miss (bpm : BufferPoolManager σ Page) {N c : Nat}
    {r : ParallelBufferPoolManager σ} (h : c < N) {sh : σ}
    (hf : instances_find r.instances_ (r.starting_index_ % N) = some (some sh))
    (hp : (bpm.NewPage sh).2 = none) :
    NewPgImp_loop bpm N r c =
      match NewPgImp_loop bpm N
          { r with
            instances_ := instances_store r.instances_ (r.starting_index_ % N) (bpm.NewPage sh).1,
            starting_index_ := (r.starting_index_ + 1) % 2 ^ SIZE_BITS } (c + 1) with
      | none => none
      | some (r'', res, calls) => some (r'', res, (r.starting_index_ % N, Call.NewPage) :: calls) := by
  rw [NewPgImp_loop]
  have h' : ¬ c + 1 > N := by omega
  simp only [h', dite_false, instances_at_of_find hf]
  rw [hp]

theorem range_succ_map_probe (s N n : Nat) :
    (List.range (n + 1)).map (probe s N) =
      (s % N, Call.NewPage) :: (List.range n).map (probe (s + 1) N) := by
  rw [List.range_succ_eq_map, List.map_cons, List.map_map]
  congr 1
  apply List.map_congr_left
  intro i _
  simp only [probe, Function.comp_apply, Nat.succ_eq_add_one]
  congr 2
  omega

/-- While the cursor does not wrap, the wrapped probe sequence is the plain
one. -/
theorem map_probeW_eq_probe {s n : Nat} (h : s + n ≤ 2 ^ SIZE_BITS) (N : Nat) :
    (List.range n).map (probeW s N) = (List.range n).map (probe s N) := by
  apply List.map_congr_left
  intro i hi
  rw [List.mem_range] at hi
  simp only [probeW, probe]
  rw [Nat.mod_eq_of_lt (show s + i < 2 ^ SIZE_BITS by omega)]

/-- A run of `n` failing probes during which the cursor does not wrap: the
loop entered at counter `c` continues as the loop entered at counter `c + n`
from the router `r1` in which the cursor has advanced by `n` and exactly the
probed shards have made their step. -/
theorem NewPgImp_loop_misses (bpm : BufferPoolManager σ Page) (N : Nat) :
    ∀ (n : Nat) (r : ParallelBufferPoolManager σ) (c : Nat), c + n ≤ N →
    r.starting_index_ < 2 ^ SIZE_BITS →
    r.starting_index_ + n ≤ 2 ^ SIZE_BITS →
    (∀ i, i < n → ∃ sh,
      instances_find r.instances_ ((r.starting_index_ + i) % N) = some (some sh) ∧
        (bpm.NewPage sh).2 = none) →
    ∃ r1 : ParallelBufferPoolManager σ,
      r1.starting_index_ = (r.starting_index_ + n) % 2 ^ SIZE_BITS ∧
      r1.instances_.length = r.instances_.length ∧
      r1.instance_pool_size_ = r.instance_pool_size_ ∧
      r1.num_instances_ = r.num_instances_ ∧
      (∀ k, (∀ i, i < n → k ≠ (r.starting_index_ + i) % N) →
        instances_find r1.instances_ k = instances_find r.instances_ k) ∧
      (∀ i, i < n → ∀ sh,
        instances_find r.instances_ ((r.starting_index_ + i) % N) = some (some sh) →
        instances_find r1.instances_ ((r.starting_index_ + i) % N) =
          some (some (bpm.NewPage sh).1)) ∧
      NewPgImp_loop bpm N r c =
        match NewPgImp_loop bpm N r1 (c + n) with
        | none => none
        | some (r'', res, calls) =>
          some (r'', res, (List.range n).map (probe r.starting_index_ N) ++ calls) := by
  intro n
  induction n with
  | zero =>
    intro r c _ hs _ _
    refine ⟨r, by rw [Nat.add_zero, Nat.mod_eq_of_lt hs], rfl, rfl, rfl, fun _ _ => rfl,
      fun i hi => absurd hi (Nat.not_lt_zero i), ?_⟩
    rcases hl : NewPgImp_loop bpm N r c with _ | ⟨r'', res, calls⟩
    · simp [hl]
    · simp [hl]
  | succ n ih =>
    intro r c hc hs hnw hfail
    obtain ⟨sh0, hf0, hp0⟩ := hfail 0 (Nat.succ_pos n)
    rw [Nat.add_zero] at hf0
    have hstep := NewPgImp_loop_miss bpm (show c < N by omega) hf0 hp0
    have hne : ∀ i, i < n →
        (r.starting_index_ + (i + 1)) % N ≠ r.starting_index_ % N := by
      intro i hi h
      have := add_mod_ne (s := r.starting_index_) (a := 0) (b := i + 1) (N := N)
        (by omega) (by omega)
      exact this (by rw [Nat.add_zero]; exact h.symm)
    have hs1 : ∀ i, i < n → (r.starting_index_ + 1) % 2 ^ SIZE_BITS = r.starting_index_ + 1 :=
      fun i hi => Nat.mod_eq_of_lt (by omega)
    have hidx : ∀ i, i < n →
        ((r.starting_index_ + 1) % 2 ^ SIZE_BITS + i) % N =
          (r.starting_index_ + (i + 1)) % N := by
      intro i hi
      rw [hs1 i hi]
      congr 1
      omega
    have hmap : (List.range n).map (probe ((r.starting_index_ + 1) % 2 ^ SIZE_BITS) N) =
        (List.range n).map (probe (r.starting_index_ + 1) N) := by
      apply List.map_congr_left
      intro i hi
      rw [List.mem_range] at hi
      rw [hs1 i hi]
    have hle := Nat.mod_le (r.starting_index_ + 1) (2 ^ SIZE_BITS)
    obtain ⟨r1, h1, h2, h3, h4, h5, h6, h7⟩ :=
      ih { r with
            instances_ :=
              instances_store r.instances_ (r.starting_index_ % N) (bpm.NewPage sh0).1,
            starting_index_ := (r.starting_index_ + 1) % 2 ^ SIZE_BITS } (c + 1) (by omega)
        (Nat.mod_lt _ pow_size_pos)
        (by
          show (r.starting_index_ + 1) % 2 ^ SIZE_BITS + n ≤ 2 ^ SIZE_BITS
          omega)
        (by
          intro i hi
          obtain ⟨sh, hf, hp⟩ := hfail (i + 1) (by omega)
          refine ⟨sh, ?_, hp⟩
          show instances_find (instances_store _ _ _)
            (((r.starting_index_ + 1) % 2 ^ SIZE_BITS + i) % N) = _
          rw [hidx i hi, instances_find_store, if_neg (hne i hi)]
          exact hf)
    dsimp only at h1 h2 h3 h4 h5 h6 h7
    rw [hmap] at h7
    refine ⟨r1, ?_, ?_, h3, h4, ?_, ?_, ?_⟩
    · rw [h1, Nat.mod_add_mod]
      congr 1
      omega
    · rw [h2, instances_store_length]
    · intro k hk
      have hk0 : k ≠ r.starting_index_ % N := by
        have := hk 0 (Nat.succ_pos n)
        rwa [Nat.add_zero] at this
      rw [h5 k (fun i hi => by rw [hidx i hi]; exact hk (i + 1) (by omega)),
        instances_find_store, if_neg hk0]
    · intro i hi sh hsh
      cases i with
      | zero =>
        rw [Nat.add_zero] at hsh ⊢
        rw [hf0] at hsh
        cases hsh
        rw [h5 _ (fun i hi => by rw [hidx i hi]; exact (hne i hi).symm),
          instances_find_store, if_pos rfl, hf0]
        rfl
      | succ i =>
        have hi' : i < n := by omega
        have := h6 i hi' sh (by
          rw [hidx i hi', instances_find_store, if_neg (hne i hi')]
          exact hsh)
        rw [hidx i hi'] at this
        exact this
    · rw [hstep, h7]
      have hcn : c + 1 + n = c + (n + 1) := by omega
      rw [hcn]
      rcases NewPgImp_loop bpm N r1 (c + (n + 1)) with _ | ⟨r'', res, calls⟩
      · rfl
      · simp only [range_succ_map_probe, List.cons_append]

end ParallelBufferPoolManager

end bustub

namespace bustub.Example

theorem WF_router3 : ParallelBufferPoolManager.WF router3 3 := by
  constructor
  · rfl
  · intro k hk
    interval_cases k
    · exact ⟨[], rfl⟩
    · exact ⟨[4], rfl⟩
    · exact ⟨[2, 5], rfl⟩

theorem WF_router3_full : ParallelBufferPoolManager.WF router3_full 3 := by
  constructor
  · rfl
  · intro k hk
    interval_cases k <;> exact ⟨[], rfl⟩

end bustub.Example

namespace bustub.ParallelBufferPoolManager

variable {σ Page : Type}

theorem toNat_mod_of_nonneg {q : Int} (hq : 0 ≤ q) (N : Nat) :
    q.toNat % N = (q % (N : Int)).toNat := by
  obtain ⟨m, rfl⟩ := Int.eq_ofNat_of_zero_le hq
  rw [Int.toNat_natCast, ← Int.natCast_mod, Int.toNat_natCast]

theorem size_t_conversion {p : Int} (hlo : -(2 ^ 63 : Int) ≤ p) (hhi : p < 2 ^ 63) :
    p % (2 ^ SIZE_BITS : Int) = if 0 ≤ p then p else p + 2 ^ 64 := by
  unfold SIZE_BITS
  split
  · exact Int.emod_eq_of_lt (by omega) (by omega)
  · rw [← Int.add_emod_self]
    exact Int.emod_eq_of_lt (by omega) (by omega)

end bustub.ParallelBufferPoolManager

namespace bustub.Example

end bustub.Example

/-! ## The router contracts -/

namespace bustub.ParallelBufferPoolManager

variable {σ Page : Type}

/-- C8 as stated fails for a negative page id: on a router with three shards
`GetBufferPoolManager(-1)` selects the shard with index 0, whereas `-1 mod 3`
is 2 (and the truncated remainder of `-1` by `3` is `-1`). -/
theorem GetBufferPoolManager_negative_page_id :
    (GetBufferPoolManager Example.router3 (-1)).map (fun x => x.2.1) = some 0 ∧
    (-1 : Int) % (3 : Int) = 2 ∧ Int.tmod (-1) 3 = -1 := by
  decide

/-- C8, amended.  For a router with `N > 0` shards and a page id `p` (a signed
integer of at most 64 bits), `GetBufferPoolManager(p)` leaves the router
unchanged and selects the shard stored under the index `q mod N`, where `q` is
`p` converted to `size_t`: `q = p` when `p` is non-negative, `q = p + 2^64`
when `p` is negative.  In particular the index is `p mod N` for every
non-negative `p`. -/
theorem GetBufferPoolManager_owner (r : ParallelBufferPoolManager σ) (N : Nat)
    (hwf : WF r N) (hN : 0 < N) (p : page_id_t)
    (hlo : -(2 ^ 63 : Int) ≤ p) (hhi : p < 2 ^ 63) :
    ∃ sh k, GetBufferPoolManager r p = some (r, k, some sh) ∧
      instances_find r.instances_ k = some (some sh) ∧
      k < N ∧
      k = ((if (0 : Int) ≤ p then (p : Int) else p + 2 ^ 64) % (N : Int)).toNat ∧
      ((0 : Int) ≤ p → (k : Int) = p % (N : Int)) := by
  have hq : (0 : Int) ≤ (if (0 : Int) ≤ p then (p : Int) else p + 2 ^ 64) := by
    split
    · assumption
    · have : (0 : Int) ≤ p + 2 ^ 63 := by linarith
      linarith
  have hidx : GetBufferPoolManager_index p N =
      some ((if (0 : Int) ≤ p then (p : Int) else p + 2 ^ 64) % (N : Int)).toNat := by
    unfold GetBufferPoolManager_index
    rw [if_neg (by omega), size_t_conversion hlo hhi, toNat_mod_of_nonneg hq]
  have hNz : (N : Int) ≠ 0 := by exact_mod_cast (by omega : N ≠ 0)
  have hlt : ((if 0 ≤ p then p else p + 2 ^ 64) % (N : Int)).toNat < N := by
    have h1 := Int.emod_lt_of_pos (if 0 ≤ p then p else p + 2 ^ 64)
      (show (0 : Int) < N by exact_mod_cast hN)
    have h2 := Int.emod_nonneg (if 0 ≤ p then p else p + 2 ^ 64) hNz
    omega
  obtain ⟨sh, hsh⟩ := hwf.present _ hlt
  refine ⟨sh, _, ?_, hsh, hlt, rfl, ?_⟩
  · unfold GetBufferPoolManager
    simp only [hwf.size, hidx, instances_at_of_find hsh]
  · intro hp
    rw [if_pos hp]
    exact Int.toNat_of_nonneg (Int.emod_nonneg p hNz)

/-- Witness of the amended C8: page ids 7 and -1 on the three-shard router. -/
theorem GetBufferPoolManager_owner_witness :
    WF Example.router3 3 ∧
    (∃ sh k, GetBufferPoolManager Example.router3 7 = some (Example.router3, k, some sh) ∧
      instances_find Example.router3.instances_ k = some (some sh) ∧
      k < 3 ∧
      k = ((if (0 : Int) ≤ 7 then (7 : Int) else 7 + 2 ^ 64) % ((3 : Nat) : Int)).toNat ∧
      ((0 : Int) ≤ 7 → (k : Int) = 7 % ((3 : Nat) : Int))) ∧
    (∃ sh k, GetBufferPoolManager Example.router3 (-1) = some (Example.router3, k, some sh) ∧
      instances_find Example.router3.instances_ k = some (some sh) ∧
      k < 3 ∧
      k = ((if (0 : Int) ≤ -1 then (-1 : Int) else -1 + 2 ^ 64) % ((3 : Nat) : Int)).toNat ∧
      ((0 : Int) ≤ -1 → (k : Int) = -1 % ((3 : Nat) : Int))) :=
  ⟨Example.WF_router3,
    GetBufferPoolManager_owner Example.router3 3 Example.WF_router3 (by decide) 7
      (by decide) (by decide),
    GetBufferPoolManager_owner Example.router3 3 Example.WF_router3 (by decide) (-1)
      (by decide) (by decide)⟩

end bustub.ParallelBufferPoolManager

namespace bustub.ParallelBufferPoolManager

variable {σ Page : Type}

end bustub.ParallelBufferPoolManager


namespace bustub.ParallelBufferPoolManager

variable {σ Page : Type}

end bustub.ParallelBufferPoolManager

/-! ## Counting victims and insertions; the index of the replacer -/

namespace bustub.LRUReplacer

theorem Victim_evictable {s : LRUReplacer} (h : Inv s) {g : frame_id_t}
    (hv : s.Victim.2 = some g) : s.evictable g ∧ g ∈ s.frames := by
  rcases List.eq_nil_or_concat s.frame_list_ with hl | ⟨l, n, hl⟩
  · rw [Victim_of_nil hl] at hv; cases hv
  · rw [List.concat_eq_append] at hl
    rw [Victim_of_snoc hl] at hv
    simp only [Option.some.injEq] at hv
    subst hv
    have hm : n.val ∈ s.frames := by simp [frames, hl]
    exact ⟨(evictable_iff_mem_frames h n.val).2 hm, hm⟩

theorem evictable_of_Victim {s : LRUReplacer} {f : frame_id_t}
    (h : s.Victim.1.evictable f) : s.evictable f ∧ s.Victim.2 ≠ some f := by
  rcases List.eq_nil_or_concat s.frame_list_ with hl | ⟨l, n, hl⟩
  · rw [Victim_of_nil hl] at h ⊢
    exact ⟨h, by simp⟩
  · rw [List.concat_eq_append] at hl
    rw [Victim_of_snoc hl] at h ⊢
    rw [evictable_erase] at h
    refine ⟨(evictable_iff_mem_map s f).2 h.2, ?_⟩
    simp only [ne_eq, Option.some.injEq]
    exact fun hc => h.1 hc.symm

theorem evictable_of_Pin {s s' : LRUReplacer} (h : Inv s) {g f : frame_id_t}
    (hp : s.Pin g = some s') (he : s'.evictable f) : s.evictable f := by
  by_cases hg : s.evictable g
  · obtain ⟨a, _, hpin⟩ := Pin_of_evictable h hg
    rw [hpin] at hp
    cases hp
    rw [evictable_erase] at he
    exact (evictable_iff_mem_map s f).2 he.2
  · rw [Pin_of_not_evictable hg] at hp
    cases hp
    exact he

theorem victimCount_le : ∀ (ops : List Op) (s : LRUReplacer) (f : frame_id_t), Inv s →
    victimCount f s ops ≤ insertCount f s ops + (if s.evictable f then 1 else 0) := by
  intro ops
  induction ops with
  | nil => intro s f _; simp [victimCount]
  | cons op ops ih =>
    intro s f h
    cases op with
    | victim =>
      have ih' := ih s.Victim.1 f (Inv_Victim h)
      have hstep : s.step Op.victim = some (s.Victim.1, s.Victim.2) := rfl
      simp only [victimCount, insertCount, hstep]
      have hno : ¬ (Op.victim = Op.unpin f ∧ ¬ s.evictable f ∧ s.Size < s.num_pages_) :=
        fun hc => Op.noConfusion hc.1
      rw [if_neg hno]
      by_cases hv : s.Victim.2 = some f
      · have hs := (Victim_evictable h hv).1
        have hs' : ¬ s.Victim.1.evictable f := fun hc => (evictable_of_Victim hc).2 hv
        rw [if_pos hv, if_pos hs]
        rw [if_neg hs'] at ih'
        omega
      · rw [if_neg hv]
        by_cases hs' : s.Victim.1.evictable f
        · rw [if_pos (evictable_of_Victim hs').1]
          rw [if_pos hs'] at ih'
          omega
        · rw [if_neg hs'] at ih'
          split <;> omega
    | pin g =>
      obtain ⟨s', hs'⟩ := Pin_isSome h g
      have ih' := ih s' f (Inv_Pin h hs')
      have hstep : s.step (Op.pin g) = some (s', none) := by simp [step, hs']
      simp only [victimCount, insertCount, hstep]
      have hno : ¬ (Op.pin g = Op.unpin f ∧ ¬ s.evictable f ∧ s.Size < s.num_pages_) :=
        fun hc => Op.noConfusion hc.1
      rw [if_neg hno, if_neg (by simp)]
      by_cases he' : s'.evictable f
      · rw [if_pos (evictable_of_Pin h hs' he')]
        rw [if_pos he'] at ih'
        omega
      · rw [if_neg he'] at ih'
        split <;> omega
    | unpin g =>
      have ih' := ih (s.Unpin g) f (Inv_Unpin h g)
      have hstep : s.step (Op.unpin g) = some (s.Unpin g, none) := rfl
      simp only [victimCount, insertCount, hstep]
      rw [if_neg (by simp)]
      by_cases hins : Op.unpin g = Op.unpin f ∧ ¬ s.evictable f ∧ s.Size < s.num_pages_
      · rw [if_pos hins, if_neg hins.2.1]
        have : victimCount f (s.Unpin g) ops ≤ insertCount f (s.Unpin g) ops + 1 := by
          split at ih' <;> omega
        omega
      · rw [if_neg hins]
        by_cases he' : (s.Unpin g).evictable f
        · have hs : s.evictable f := by
            by_cases hg : s.evictable g
            · rwa [Unpin_of_evictable hg] at he'
            by_cases hc : s.Size < s.num_pages_
            · rcases (evictable_Unpin_insert hg hc f).1 he' with h1 | h1
              · subst h1
                exact absurd ⟨rfl, hg, hc⟩ hins
              · exact h1
            · rwa [Unpin_of_full g hc] at he'
          rw [if_pos hs]
          rw [if_pos he'] at ih'
          omega
        · rw [if_neg he'] at ih'
          split <;> omega

theorem index_length {s : LRUReplacer} (h : Inv s) :
    s.frame_hashmap_.length = s.frame_list_.length := by
  have hinj : Function.Injective (fun e : frame_id_t × Nat => (⟨e.2, e.1⟩ : ListNode)) := by
    intro x y hxy
    simp only [ListNode.mk.injEq] at hxy
    exact Prod.ext hxy.2 hxy.1
  have hnd1 : (s.frame_hashmap_.map (fun e : frame_id_t × Nat => (⟨e.2, e.1⟩ : ListNode))).Nodup :=
    (List.Nodup.of_map _ h.key_nodup).map hinj
  have hnd2 : s.frame_list_.Nodup := List.Nodup.of_map _ h.addr_nodup
  have hperm : (s.frame_hashmap_.map (fun e : frame_id_t × Nat => (⟨e.2, e.1⟩ : ListNode))).Perm
      s.frame_list_ := by
    rw [List.perm_ext_iff_of_nodup hnd1 hnd2]
    intro c
    constructor
    · intro hc
      obtain ⟨e, he, rfl⟩ := List.mem_map.1 hc
      exact (h.index e.1 e.2).1 he
    · intro hc
      exact List.mem_map.2 ⟨(c.val, c.addr), (h.index c.val c.addr).2 hc, rfl⟩
  have := hperm.length_eq
  simpa using this

end bustub.LRUReplacer

/-! ## The replacer invariants over call sequences -/

namespace bustub.LRUReplacer

/-- C16. `Victim` output is bounded by insertions: every sequence of `Victim`,
`Pin` and `Unpin` calls on a fresh replacer of capacity `k` runs to
completion, and for every frame `f` the number of `Victim` calls in it that
return `f` is at most the number of `Unpin(f)` calls in it that inserted `f`
(made when `f` was not evictable and the size was below the capacity).  In
the state after each prefix of the sequence, a frame that `Victim` returns is
evictable at that time and is in the recency list. -/
theorem victims_bounded_by_insertions (k : Nat) (ops : List Op) (f : frame_id_t) :
    (∃ s, exec (new k) ops = some s) ∧
    victimCount f (new k) ops ≤ insertCount f (new k) ops ∧
    ∀ n, ∃ s, exec (new k) (ops.take n) = some s ∧
      ∀ g, s.Victim.2 = some g → s.evictable g ∧ g ∈ s.frames := by
  refine ⟨?_, ?_, ?_⟩
  · obtain ⟨s, hs, _⟩ := exec_inv ops (new k) (inv_new k)
    exact ⟨s, hs⟩
  · have h := victimCount_le ops (new k) f (inv_new k)
    have hne : ¬ (new k).evictable f := by
      simp [evictable, new, hashmap_count, hashmap_find]
    rw [if_neg hne] at h
    exact h
  · intro n
    obtain ⟨s, hs, hinv, _⟩ := exec_inv (ops.take n) (new k) (inv_new k)
    exact ⟨s, hs, fun g hg => Victim_evictable hinv hg⟩

/-- Witness of C16: in `Unpin(10); Unpin(10); Victim; Victim; Unpin(10); Pin(10);
Victim` on a replacer of capacity 3, frame 10 is returned once and inserted
twice. -/
theorem victims_bounded_by_insertions_witness :
    victimCount 10 (new 3)
        [Op.unpin 10, Op.unpin 10, Op.victim, Op.victim, Op.unpin 10, Op.pin 10, Op.victim] = 1 ∧
    insertCount 10 (new 3)
        [Op.unpin 10, Op.unpin 10, Op.victim, Op.victim, Op.unpin 10, Op.pin 10, Op.victim] = 2 ∧
    ∃ s, exec (new 3) ([Op.unpin 10, Op.unpin 10, Op.victim, Op.victim, Op.unpin 10,
        Op.pin 10, Op.victim].take 2) = some s ∧
      ∀ g, s.Victim.2 = some g → s.evictable g ∧ g ∈ s.frames :=
  ⟨by decide, by decide,
    (victims_bounded_by_insertions 3
      [Op.unpin 10, Op.unpin 10, Op.victim, Op.victim, Op.unpin 10, Op.pin 10, Op.victim]
      10).2.2 2⟩

/-- C20. Index consistency of the replacer: every sequence of `Victim`, `Pin`
and `Unpin` calls on a fresh replacer runs to completion, and in the state
after each prefix the keys of `frame_hashmap_` are exactly the frames held in
`frame_list_`, the two containers have the same size, no key and no cell
address occurs twice, and the iterator stored for a frame `f` designates a
cell of the list, the only cell at that address, and that cell holds `f`; so
`Pin(f)` completes and unlinks exactly that cell: the list loses one cell,
every other cell stays, in the same order. -/
theorem index_consistency (k : Nat) (ops : List Op) (n : Nat) :
    ∃ s, exec (new k) (ops.take n) = some s ∧
      (∀ f, f ∈ s.frame_hashmap_.map Prod.fst ↔ f ∈ s.frame_list_.map ListNode.val) ∧
      s.frame_hashmap_.length = s.frame_list_.length ∧
      (s.frame_hashmap_.map Prod.fst).Nodup ∧
      (s.frame_list_.map ListNode.addr).Nodup ∧
      ∀ f a, hashmap_find s.frame_hashmap_ f = some a →
        (⟨a, f⟩ : ListNode) ∈ s.frame_list_ ∧
        (∀ c, c ∈ s.frame_list_ → c.addr = a → c = ⟨a, f⟩) ∧
        ∃ s', s.Pin f = some s' ∧
          s'.frame_list_ = s.frame_list_.filter (fun c => decide (c ≠ ⟨a, f⟩)) ∧
          s'.frame_list_.length + 1 = s.frame_list_.length ∧
          s'.frame_hashmap_ = hashmap_erase s.frame_hashmap_ f := by
  obtain ⟨s, hs, hinv, _⟩ := exec_inv (ops.take n) (new k) (inv_new k)
  refine ⟨s, hs, ?_, index_length hinv, hinv.key_nodup, hinv.addr_nodup, ?_⟩
  · intro f
    constructor
    · intro hf
      obtain ⟨e, he, rfl⟩ := List.mem_map.1 hf
      exact List.mem_map.2 ⟨⟨e.2, e.1⟩, (hinv.index e.1 e.2).1 he, rfl⟩
    · intro hf
      obtain ⟨c, hc, rfl⟩ := List.mem_map.1 hf
      exact List.mem_map.2 ⟨(c.val, c.addr), (hinv.index c.val c.addr).2 hc, rfl⟩
  · intro f a hfa
    have hmem : (⟨a, f⟩ : ListNode) ∈ s.frame_list_ :=
      (hinv.index f a).1 (hashmap_find_mem hfa)
    refine ⟨hmem, ?_, ?_⟩
    · intro c hc hca
      exact List.inj_on_of_nodup_map hinv.addr_nodup hc hmem hca
    · have he : s.evictable f := (evictable_iff_mem_map s f).2 ⟨a, hashmap_find_mem hfa⟩
      obtain ⟨a', hl', hpin⟩ := Pin_of_evictable hinv he
      have haa : a' = a := by
        have := List.inj_on_of_nodup_map hinv.val_nodup hl' hmem rfl
        exact congrArg ListNode.addr this
      subst haa
      exact ⟨_, hpin, rfl, length_filter_ne (List.Nodup.of_map _ hinv.addr_nodup) hmem, rfl⟩

/-- Witness of C20: after `Unpin(10); Unpin(20); Unpin(30)` the iterator stored
for frame 20 is the address 2, the cell there holds 20, and `Pin(20)` leaves
the cells of 30 and 10. -/
theorem index_consistency_witness :
    hashmap_find Example.replacer3.frame_hashmap_ 20 = some 2 ∧
    ∃ s, exec (new 3) ([Op.unpin 10, Op.unpin 20, Op.unpin 30].take 3) = some s ∧
      (∀ f, f ∈ s.frame_hashmap_.map Prod.fst ↔ f ∈ s.frame_list_.map ListNode.val) ∧
      s.frame_hashmap_.length = s.frame_list_.length ∧
      (s.frame_hashmap_.map Prod.fst).Nodup ∧
      (s.frame_list_.map ListNode.addr).Nodup ∧
      ∀ f a, hashmap_find s.frame_hashmap_ f = some a →
        (⟨a, f⟩ : ListNode) ∈ s.frame_list_ ∧
        (∀ c, c ∈ s.frame_list_ → c.addr = a → c = ⟨a, f⟩) ∧
        ∃ s', s.Pin f = some s' ∧
          s'.frame_list_ = s.frame_list_.filter (fun c => decide (c ≠ ⟨a, f⟩)) ∧
          s'.frame_list_.length + 1 = s.frame_list_.length ∧
          s'.frame_hashmap_ = hashmap_erase s.frame_hashmap_ f :=
  ⟨by decide, index_consistency 3 [Op.unpin 10, Op.unpin 20, Op.unpin 30] 3⟩

end bustub.LRUReplacer

/-! ## Lemmas on the delegating operations of the router -/

namespace bustub

theorem instances_store_keys {σ : Type} (m : List (Nat × Option σ)) (key : Nat) (v : σ) :
    (instances_store m key v).map Prod.fst = m.map Prod.fst := by
  induction m with
  | nil => rfl
  | cons e m ih =>
    obtain ⟨k0, w⟩ := e
    by_cases h0 : k0 = key <;> simp [instances_store, h0, ih]

theorem Extends_refl {σ : Type} (m : List (Nat × Option σ)) : Extends m m :=
  ⟨rfl, fun _ h => h⟩

theorem Extends_trans {σ : Type} {m₁ m₂ m₃ : List (Nat × Option σ)}
    (h₁ : Extends m₃ m₂) (h₂ : Extends m₂ m₁) : Extends m₃ m₁ :=
  ⟨h₁.1.trans h₂.1, fun k hk => h₁.2 k (h₂.2 k hk)⟩

theorem Extends_store {σ : Type} (m : List (Nat × Option σ)) (key : Nat) (v : σ) :
    Extends (instances_store m key v) m := by
  refine ⟨instances_store_keys m key v, ?_⟩
  rintro k ⟨sh, hsh⟩
  rw [instances_find_store]
  by_cases hk : k = key
  · subst hk
    rw [if_pos rfl, hsh]
    exact ⟨v, rfl⟩
  · rw [if_neg hk]
    exact ⟨sh, hsh⟩

namespace ParallelBufferPoolManager

variable {σ Page : Type}

theorem WF_of_Extends {r r' : ParallelBufferPoolManager σ} {N : Nat} (h : WF r N)
    (he : Extends r'.instances_ r.instances_) : WF r' N := by
  constructor
  · have := congrArg List.length he.1
    simp only [List.length_map] at this
    rw [this, h.size]
  · intro k hk
    exact he.2 k (h.present k hk)

theorem keys_new (bpm : BufferPoolManager σ Page) (N pool_size : Nat) :
    (new bpm N pool_size).instances_.map Prod.fst = List.range N := by
  simp only [new, foldl_emplace_range, List.map_map]
  exact List.map_id _

theorem find_new (bpm : BufferPoolManager σ Page) (N pool_size : Nat) {i : Nat} (hi : i < N) :
    instances_find (new bpm N pool_size).instances_ i =
      some (some (bpm.create pool_size N i)) := by
  simp only [new, foldl_emplace_range]
  rw [instances_find_map_range (fun i => bpm.create pool_size N i), if_pos hi]

theorem GetBufferPoolManager_index_lt {p : page_id_t} {N k : Nat}
    (h : GetBufferPoolManager_index p N = some k) : k < N := by
  unfold GetBufferPoolManager_index at h
  split at h
  · cases h
  · cases h
    exact Nat.mod_lt _ (by omega)

theorem GetBufferPoolManager_index_isSome (p : page_id_t) {N : Nat} (hN : 0 < N) :
    ∃ k, GetBufferPoolManager_index p N = some k ∧ k < N := by
  refine ⟨(p % (2 ^ SIZE_BITS : Int)).toNat % N, ?_, Nat.mod_lt _ hN⟩
  unfold GetBufferPoolManager_index
  rw [if_neg (by omega)]

theorem GetBufferPoolManager_some {r r1 : ParallelBufferPoolManager σ} {p : page_id_t}
    {k : Nat} {sh : σ} (h : GetBufferPoolManager r p = some (r1, k, some sh)) :
    r1 = r ∧ instances_find r.instances_ k = some (some sh) ∧
      GetBufferPoolManager_index p r.instances_.length = some k := by
  unfold GetBufferPoolManager at h
  cases hi : GetBufferPoolManager_index p r.instances_.length with
  | none => simp [hi] at h
  | some k' =>
    simp only [hi] at h
    cases hf : instances_find r.instances_ k' with
    | none =>
      simp [instances_at, hf] at h
    | some v =>
      simp only [instances_at, hf, Option.some.injEq, Prod.mk.injEq] at h
      obtain ⟨h1, h2, h3⟩ := h
      refine ⟨h1.symm, ?_, ?_⟩
      · rw [← h2, hf, h3]
      · rw [← h2]

theorem GetBufferPoolManager_of_WF {r : ParallelBufferPoolManager σ} {N : Nat} (hwf : WF r N)
    {p : page_id_t} {k : Nat} (hk : GetBufferPoolManager_index p N = some k) :
    ∃ sh, instances_find r.instances_ k = some (some sh) ∧
      GetBufferPoolManager r p = some (r, k, some sh) := by
  obtain ⟨sh, hsh⟩ := hwf.present k (GetBufferPoolManager_index_lt hk)
  refine ⟨sh, hsh, ?_⟩
  unfold GetBufferPoolManager
  simp only [hwf.size, hk, instances_at_of_find hsh]

theorem invoke_of_WF {α : Type} {r : ParallelBufferPoolManager σ} {N : Nat} (hwf : WF r N)
    {p : page_id_t} {k : Nat} (hk : GetBufferPoolManager_index p N = some k)
    (c : Call) (op : σ → σ × α) :
    ∃ sh, instances_find r.instances_ k = some (some sh) ∧
      invoke (GetBufferPoolManager r p) c op =
        some ({ r with instances_ := instances_store r.instances_ k (op sh).1 },
          (op sh).2, [(k, c)]) := by
  obtain ⟨sh, hsh, hg⟩ := GetBufferPoolManager_of_WF hwf hk
  exact ⟨sh, hsh, by rw [hg]; rfl⟩

theorem invoke_frame {α : Type} {r r' : ParallelBufferPoolManager σ} {p : page_id_t}
    {c : Call} {op : σ → σ × α} {a : α} {calls : List (Nat × Call)}
    (h : invoke (GetBufferPoolManager r p) c op = some (r', a, calls)) :
    Extends r'.instances_ r.instances_ ∧
      r'.starting_index_ = r.starting_index_ ∧
      r'.instance_pool_size_ = r.instance_pool_size_ ∧
      r'.num_instances_ = r.num_instances_ := by
  cases hg : GetBufferPoolManager r p with
  | none => simp [hg, invoke] at h
  | some x =>
    obtain ⟨r1, k, ptr⟩ := x
    cases ptr with
    | none => simp [hg, invoke] at h
    | some sh =>
      obtain ⟨h1, _, _⟩ := GetBufferPoolManager_some hg
      subst h1
      simp only [hg, invoke, Option.some.injEq, Prod.mk.injEq] at h
      obtain ⟨h1, _, _⟩ := h
      subst h1
      exact ⟨Extends_store _ _ _, rfl, rfl, rfl⟩

end ParallelBufferPoolManager

end bustub

/-! ## Lemmas on the loops of the router -/

namespace bustub.ParallelBufferPoolManager

variable {σ Page : Type}

theorem instances_at_snd_none {m : List (Nat × Option σ)} {key : Nat}
    (h : ∀ sh, instances_find m key ≠ some (some sh)) : (instances_at m key).2 = none := by
  unfold instances_at
  cases hf : instances_find m key with
  | none => rfl
  | some v =>
    cases v with
    | none => rfl
    | some sh => exact absurd hf (h sh)

theorem NewPgImp_loop_null (bpm : BufferPoolManager σ Page) {N c : Nat}
    {r : ParallelBufferPoolManager σ} (h : c < N)
    (hf : ∀ sh, instances_find r.instances_ (r.starting_index_ % N) ≠ some (some sh)) :
    NewPgImp_loop bpm N r c = none := by
  rw [NewPgImp_loop]
  have h' : ¬ c + 1 > N := by omega
  have h2 := instances_at_snd_none hf
  simp only [h', dite_false]
  rcases hat : instances_at r.instances_ (r.starting_index_ % N) with ⟨m, ptr⟩
  rw [hat] at h2
  simp only at h2
  subst h2
  rfl

theorem FlushAllPgsImp_loop_done (bpm : BufferPoolManager σ Page) {N i : Nat}
    (r : ParallelBufferPoolManager σ) (h : ¬ i < N) :
    FlushAllPgsImp_loop bpm N r i = some (r, []) := by
  rw [FlushAllPgsImp_loop]
  simp [h]

theorem FlushAllPgsImp_loop_step (bpm : BufferPoolManager σ Page) {N i : Nat}
    {r : ParallelBufferPoolManager σ} (h : i < N) {sh : σ}
    (hf : instances_find r.instances_ i = some (some sh)) :
    FlushAllPgsImp_loop bpm N r i =
      match FlushAllPgsImp_loop bpm N
          { r with instances_ := instances_store r.instances_ i (bpm.FlushAllPages sh) }
          (i + 1) with
      | none => none
      | some (r'', calls) => some (r'', (i, Call.FlushAllPages) :: calls) := by
  rw [FlushAllPgsImp_loop]
  simp only [h, dite_true, instances_at_of_find hf]

theorem FlushAllPgsImp_loop_null (bpm : BufferPoolManager σ Page) {N i : Nat}
    {r : ParallelBufferPoolManager σ} (h : i < N)
    (hf : ∀ sh, instances_find r.instances_ i ≠ some (some sh)) :
    FlushAllPgsImp_loop bpm N r i = none := by
  rw [FlushAllPgsImp_loop]
  have h2 := instances_at_snd_none hf
  simp only [h, dite_true]
  rcases hat : instances_at r.instances_ i with ⟨m, ptr⟩
  rw [hat] at h2
  simp only at h2
  subst h2
  rfl

/-- Whenever the loop of `NewPgImp` completes, the map has kept its keys and
its shards, and the two size fields are unchanged. -/
theorem NewPgImp_loop_frame (bpm : BufferPoolManager σ Page) (N : Nat) :
    ∀ (d : Nat) (r : ParallelBufferPoolManager σ) (c : Nat), N + 1 - c ≤ d →
    ∀ r' res calls, NewPgImp_loop bpm N r c = some (r', res, calls) →
      Extends r'.instances_ r.instances_ ∧
      r'.instance_pool_size_ = r.instance_pool_size_ ∧
      r'.num_instances_ = r.num_instances_ := by
  intro d
  induction d with
  | zero =>
    intro r c hd r' res calls h
    rw [NewPgImp_loop_break bpm r (by omega)] at h
    cases h
    exact ⟨Extends_refl _, rfl, rfl⟩
  | succ d ih =>
    intro r c hd r' res calls h
    by_cases hc : c < N
    swap
    · rw [NewPgImp_loop_break bpm r (by omega)] at h
      cases h
      exact ⟨Extends_refl _, rfl, rfl⟩
    by_cases hex : ∃ sh, instances_find r.instances_ (r.starting_index_ % N) = some (some sh)
    swap
    · rw [NewPgImp_loop_null bpm hc (fun sh hsh => hex ⟨sh, hsh⟩)] at h
      cases h
    obtain ⟨sh, hsh⟩ := hex
    cases hp : (bpm.NewPage sh).2 with
    | some pg =>
      rw [NewPgImp_loop_hit bpm hc hsh hp] at h
      cases h
      exact ⟨Extends_store _ _ _, rfl, rfl⟩
    | none =>
      rw [NewPgImp_loop_miss bpm hc hsh hp] at h
      cases hrec : NewPgImp_loop bpm N
          { r with
            instances_ := instances_store r.instances_ (r.starting_index_ % N) (bpm.NewPage sh).1,
            starting_index_ := (r.starting_index_ + 1) % 2 ^ SIZE_BITS } (c + 1) with
      | none => rw [hrec] at h; cases h
      | some x =>
        obtain ⟨r'', res', calls'⟩ := x
        rw [hrec] at h
        cases h
        obtain ⟨h1, h2, h3⟩ := ih _ (c + 1) (by omega) _ _ _ hrec
        exact ⟨Extends_trans h1 (Extends_store _ _ _), h2, h3⟩

/-- Whenever the loop of `FlushAllPgsImp` completes, the map has kept its keys
and its shards, and the cursor and the two size fields are unchanged. -/
theorem FlushAllPgsImp_loop_frame (bpm : BufferPoolManager σ Page) (N : Nat) :
    ∀ (d : Nat) (r : ParallelBufferPoolManager σ) (i : Nat), N - i ≤ d →
    ∀ r' calls, FlushAllPgsImp_loop bpm N r i = some (r', calls) →
      Extends r'.instances_ r.instances_ ∧
      r'.starting_index_ = r.starting_index_ ∧
      r'.instance_pool_size_ = r.instance_pool_size_ ∧
      r'.num_instances_ = r.num_instances_ := by
  intro d
  induction d with
  | zero =>
    intro r i hd r' calls h
    rw [FlushAllPgsImp_loop_done bpm r (by omega)] at h
    cases h
    exact ⟨Extends_refl _, rfl, rfl, rfl⟩
  | succ d ih =>
    intro r i hd r' calls h
    by_cases hi : i < N
    swap
    · rw [FlushAllPgsImp_loop_done bpm r hi] at h
      cases h
      exact ⟨Extends_refl _, rfl, rfl, rfl⟩
    by_cases hex : ∃ sh, instances_find r.instances_ i = some (some sh)
    swap
    · rw [FlushAllPgsImp_loop_null bpm hi (fun sh hsh => hex ⟨sh, hsh⟩)] at h
      cases h
    obtain ⟨sh, hsh⟩ := hex
    rw [FlushAllPgsImp_loop_step bpm hi hsh] at h
    cases hrec : FlushAllPgsImp_loop bpm N
        { r with instances_ := instances_store r.instances_ i (bpm.FlushAllPages sh) }
        (i + 1) with
    | none => rw [hrec] at h; cases h
    | some x =>
      obtain ⟨r'', calls'⟩ := x
      rw [hrec] at h
      cases h
      obtain ⟨h1, h2, h3, h4⟩ := ih _ (i + 1) (by omega) _ _ hrec
      exact ⟨Extends_trans h1 (Extends_store _ _ _), h2, h3, h4⟩

/-- On a router that holds its `N` shards the loop of `FlushAllPgsImp`,
entered at index `i`, completes: it calls `FlushAllPages` on the shards
`i, i+1, ..., N-1` in that order; each of them has made that step and the
shards below `i` are untouched. -/
theorem FlushAllPgsImp_loop_spec (bpm : BufferPoolManager σ Page) (N : Nat) :
    ∀ (d : Nat) (r : ParallelBufferPoolManager σ) (i : Nat), N - i = d → WF r N →
    ∃ r', FlushAllPgsImp_loop bpm N r i =
        some (r', (List.range' i (N - i)).map (fun j => (j, Call.FlushAllPages))) ∧
      (∀ k, i ≤ k → k < N → ∀ sh, instances_find r.instances_ k = some (some sh) →
        instances_find r'.instances_ k = some (some (bpm.FlushAllPages sh))) ∧
      (∀ k, k < i → instances_find r'.instances_ k = instances_find r.instances_ k) := by
  intro d
  induction d with
  | zero =>
    intro r i hd _
    refine ⟨r, ?_, fun k h1 h2 => by omega, fun _ _ => rfl⟩
    rw [FlushAllPgsImp_loop_done bpm r (by omega), hd]
    rfl
  | succ d ih =>
    intro r i hd hwf
    have hi : i < N := by omega
    obtain ⟨sh, hsh⟩ := hwf.present i hi
    have hwf1 : WF ({ r with
        instances_ := instances_store r.instances_ i (bpm.FlushAllPages sh) } :
        ParallelBufferPoolManager σ) N :=
      WF_of_Extends hwf (Extends_store _ _ _)
    obtain ⟨r', h1, h2, h3⟩ := ih _ (i + 1) (by omega) hwf1
    simp only [instances_find_store] at h2 h3
    refine ⟨r', ?_, ?_, ?_⟩
    · rw [FlushAllPgsImp_loop_step bpm hi hsh, h1]
      have : N - i = (N - (i + 1)) + 1 := by omega
      rw [this, List.range'_succ]
      rfl
    · intro k hik hk sh' hsh'
      rcases Nat.eq_or_lt_of_le hik with heq | hlt
      · subst heq
        rw [hsh] at hsh'
        cases hsh'
        rw [h3 i (by omega), if_pos rfl, hsh]
        rfl
      · apply h2 k (by omega) hk
        rw [if_neg (by omega)]
        exact hsh'
    · intro k hk
      rw [h3 k (by omega), if_neg (by omega)]

end bustub.ParallelBufferPoolManager

/-! ## Outcome of a `NewPgImp` call; sequences of router calls -/

namespace bustub.ParallelBufferPoolManager

variable {σ Page : Type}

theorem WF_probe_step {r : ParallelBufferPoolManager σ} {N : Nat} (hwf : WF r N) (k s : Nat)
    (v : σ) :
    WF ({ r with instances_ := instances_store r.instances_ k v, starting_index_ := s } :
      ParallelBufferPoolManager σ) N :=
  WF_of_Extends hwf (Extends_store _ _ _)

/-- On a router that holds its `N` shards the loop of `NewPgImp` completes,
whatever the value of the cursor. -/
theorem NewPgImp_loop_total (bpm : BufferPoolManager σ Page) (N : Nat) :
    ∀ (d : Nat) (r : ParallelBufferPoolManager σ) (c : Nat), N - c ≤ d → WF r N →
    ∃ r' res calls, NewPgImp_loop bpm N r c = some (r', res, calls) := by
  intro d
  induction d with
  | zero =>
    intro r c hd _
    exact ⟨r, none, [], NewPgImp_loop_break bpm r (by omega)⟩
  | succ d ih =>
    intro r c hd hwf
    by_cases hc : c < N
    swap
    · exact ⟨r, none, [], NewPgImp_loop_break bpm r (by omega)⟩
    obtain ⟨sh, hsh⟩ := hwf.present (r.starting_index_ % N) (Nat.mod_lt _ (by omega))
    cases hp : (bpm.NewPage sh).2 with
    | some pg => exact ⟨_, _, _, NewPgImp_loop_hit bpm hc hsh hp⟩
    | none =>
      obtain ⟨r', res, calls, h⟩ :=
        ih _ (c + 1) (by omega)
          (WF_probe_step hwf (r.starting_index_ % N)
            ((r.starting_index_ + 1) % 2 ^ SIZE_BITS) (bpm.NewPage sh).1)
      exact ⟨r', res, _, by rw [NewPgImp_loop_miss bpm hc hsh hp, h]⟩

theorem NewPgImp_total (bpm : BufferPoolManager σ Page) {r : ParallelBufferPoolManager σ}
    {N : Nat} (hwf : WF r N) :
    ∃ r' res calls, NewPgImp bpm r = some (r', res, calls) := by
  unfold NewPgImp
  rw [hwf.size]
  exact NewPgImp_loop_total bpm N N r 0 (by omega) hwf

theorem holds_store {P : Nat → σ → Prop} {m : List (Nat × Option σ)} {j : Nat} {v : σ}
    (hm : ∀ k sh, instances_find m k = some (some sh) → P k sh) (hv : P j v) :
    ∀ k sh, instances_find (instances_store m j v) k = some (some sh) → P k sh := by
  intro k sh hsh
  rw [instances_find_store] at hsh
  by_cases hk : k = j
  · rw [if_pos hk] at hsh
    cases hf : instances_find m j with
    | none => rw [hf] at hsh; cases hsh
    | some w =>
      rw [hf] at hsh
      simp only [Option.map_some', Option.some.injEq] at hsh
      rw [hk, ← hsh]
      exact hv
  · rw [if_neg hk] at hsh
    exact hm k sh hsh

/-- A property `P k sh` of the shard under index `k` that every `NewPage` step
preserves still holds of every shard after the loop of `NewPgImp`; and when
the loop returns a page, the last shard call made is the `NewPage` that
created it, on a shard in a state with the property. -/
theorem NewPgImp_loop_inv (bpm : BufferPoolManager σ Page) (N : Nat) (P : Nat → σ → Prop)
    (hP : ∀ k sh, P k sh → P k (bpm.NewPage sh).1) :
    ∀ (d : Nat) (r : ParallelBufferPoolManager σ) (c : Nat), N + 1 - c ≤ d →
    (∀ k sh, instances_find r.instances_ k = some (some sh) → P k sh) →
    ∀ r' res calls, NewPgImp_loop bpm N r c = some (r', res, calls) →
      (∀ k sh, instances_find r'.instances_ k = some (some sh) → P k sh) ∧
      ∀ pg, res = some pg →
        ∃ k sh0, calls.getLast? = some (k, Call.NewPage) ∧ k < N ∧ P k sh0 ∧
          (bpm.NewPage sh0).2 = some pg ∧
          instances_find r'.instances_ k = some (some (bpm.NewPage sh0).1) := by
  intro d
  induction d with
  | zero =>
    intro r c hd hr r' res calls h
    rw [NewPgImp_loop_break bpm r (by omega)] at h
    cases h
    exact ⟨hr, fun pg hpg => by cases hpg⟩
  | succ d ih =>
    intro r c hd hr r' res calls h
    by_cases hc : c < N
    swap
    · rw [NewPgImp_loop_break bpm r (by omega)] at h
      cases h
      exact ⟨hr, fun pg hpg => by cases hpg⟩
    by_cases hex : ∃ sh, instances_find r.instances_ (r.starting_index_ % N) = some (some sh)
    swap
    · rw [NewPgImp_loop_null bpm hc (fun sh hsh => hex ⟨sh, hsh⟩)] at h
      cases h
    obtain ⟨sh, hsh⟩ := hex
    have hstore := holds_store (P := P) (j := r.starting_index_ % N) hr
      (hP _ sh (hr _ sh hsh))
    cases hp : (bpm.NewPage sh).2 with
    | some pg =>
      rw [NewPgImp_loop_hit bpm hc hsh hp] at h
      cases h
      refine ⟨hstore, ?_⟩
      intro pg' hpg'
      cases hpg'
      refine ⟨r.starting_index_ % N, sh, rfl, Nat.mod_lt _ (by omega), hr _ sh hsh, hp, ?_⟩
      show instances_find (instances_store _ _ _) _ = _
      rw [instances_find_store, if_pos rfl, hsh]
      rfl
    | none =>
      rw [NewPgImp_loop_miss bpm hc hsh hp] at h
      cases hrec : NewPgImp_loop bpm N
          { r with
            instances_ := instances_store r.instances_ (r.starting_index_ % N) (bpm.NewPage sh).1,
            starting_index_ := (r.starting_index_ + 1) % 2 ^ SIZE_BITS } (c + 1) with
      | none => rw [hrec] at h; cases h
      | some x =>
        obtain ⟨r'', res', calls'⟩ := x
        rw [hrec] at h
        cases h
        obtain ⟨h1, h2⟩ := ih _ (c + 1) (by omega) hstore _ _ _ hrec
        refine ⟨h1, ?_⟩
        intro pg hpg
        obtain ⟨k, sh0, hlast, hk, hPk, hmint, hfind⟩ := h2 pg hpg
        refine ⟨k, sh0, ?_, hk, hPk, hmint, hfind⟩
        cases calls' with
        | nil => cases hlast
        | cons y ys => rw [List.getLast?_cons_cons]; exact hlast

theorem NewPgImp_frame (bpm : BufferPoolManager σ Page) {r r' : ParallelBufferPoolManager σ}
    {res : Option (page_id_t × Page)} {calls : List (Nat × Call)}
    (h : NewPgImp bpm r = some (r', res, calls)) :
    Extends r'.instances_ r.instances_ ∧
      r'.instance_pool_size_ = r.instance_pool_size_ ∧
      r'.num_instances_ = r.num_instances_ :=
  NewPgImp_loop_frame bpm r.instances_.length (r.instances_.length + 1) r 0 (by omega) _ _ _ h

theorem FlushAllPgsImp_frame (bpm : BufferPoolManager σ Page)
    {r r' : ParallelBufferPoolManager σ} {calls : List (Nat × Call)}
    (h : FlushAllPgsImp bpm r = some (r', calls)) :
    Extends r'.instances_ r.instances_ ∧
      r'.starting_index_ = r.starting_index_ ∧
      r'.instance_pool_size_ = r.instance_pool_size_ ∧
      r'.num_instances_ = r.num_instances_ :=
  FlushAllPgsImp_loop_frame bpm r.instances_.length r.instances_.length r 0 (by omega) _ _ h

theorem step_frame (bpm : BufferPoolManager σ Page) {r r' : ParallelBufferPoolManager σ}
    {op : RouterOp} {res : RouterResult Page} {calls : List (Nat × Call)}
    (h : step bpm r op = some (r', res, calls)) :
    Extends r'.instances_ r.instances_ ∧
      r'.instance_pool_size_ = r.instance_pool_size_ ∧
      r'.num_instances_ = r.num_instances_ := by
  cases op with
  | NewPage =>
    simp only [step, Option.map_eq_some', Prod.mk.injEq] at h
    obtain ⟨x, hx, h1, _, _⟩ := h
    subst h1
    exact NewPgImp_frame bpm hx
  | FetchPage p =>
    simp only [step, Option.map_eq_some', Prod.mk.injEq] at h
    obtain ⟨x, hx, h1, _, _⟩ := h
    subst h1
    obtain ⟨h1, _, h3, h4⟩ := invoke_frame hx
    exact ⟨h1, h3, h4⟩
  | UnpinPage p d =>
    simp only [step, Option.map_eq_some', Prod.mk.injEq] at h
    obtain ⟨x, hx, h1, _, _⟩ := h
    subst h1
    obtain ⟨h1, _, h3, h4⟩ := invoke_frame hx
    exact ⟨h1, h3, h4⟩
  | FlushPage p =>
    simp only [step, Option.map_eq_some', Prod.mk.injEq] at h
    obtain ⟨x, hx, h1, _, _⟩ := h
    subst h1
    obtain ⟨h1, _, h3, h4⟩ := invoke_frame hx
    exact ⟨h1, h3, h4⟩
  | DeletePage p =>
    simp only [step, Option.map_eq_some', Prod.mk.injEq] at h
    obtain ⟨x, hx, h1, _, _⟩ := h
    subst h1
    obtain ⟨h1, _, h3, h4⟩ := invoke_frame hx
    exact ⟨h1, h3, h4⟩
  | FlushAllPages =>
    simp only [step, Option.map_eq_some', Prod.mk.injEq] at h
    obtain ⟨x, hx, h1, _, _⟩ := h
    subst h1
    obtain ⟨h1, _, h3, h4⟩ := FlushAllPgsImp_frame bpm hx
    exact ⟨h1, h3, h4⟩

theorem step_total (bpm : BufferPoolManager σ Page) {r : ParallelBufferPoolManager σ}
    {N : Nat} (hwf : WF r N) (hN : 0 < N) (op : RouterOp) :
    ∃ r' res calls, step bpm r op = some (r', res, calls) := by
  cases op with
  | NewPage =>
    obtain ⟨r', res, calls, h⟩ := NewPgImp_total bpm hwf
    exact ⟨r', _, _, by simp only [step, h]; rfl⟩
  | FetchPage p =>
    obtain ⟨k, hk, _⟩ := GetBufferPoolManager_index_isSome p hN
    obtain ⟨sh, _, h⟩ := invoke_of_WF hwf hk (Call.FetchPage p) (fun b => bpm.FetchPage b p)
    exact ⟨_, _, _, by simp only [step, FetchPgImp, h]; rfl⟩
  | UnpinPage p d =>
    obtain ⟨k, hk, _⟩ := GetBufferPoolManager_index_isSome p hN
    obtain ⟨sh, _, h⟩ :=
      invoke_of_WF hwf hk (Call.UnpinPage p d) (fun b => bpm.UnpinPage b p d)
    exact ⟨_, _, _, by simp only [step, UnpinPgImp, h]; rfl⟩
  | FlushPage p =>
    obtain ⟨k, hk, _⟩ := GetBufferPoolManager_index_isSome p hN
    obtain ⟨sh, _, h⟩ := invoke_of_WF hwf hk (Call.FlushPage p) (fun b => bpm.FlushPage b p)
    exact ⟨_, _, _, by simp only [step, FlushPgImp, h]; rfl⟩
  | DeletePage p =>
    obtain ⟨k, hk, _⟩ := GetBufferPoolManager_index_isSome p hN
    obtain ⟨sh, _, h⟩ := invoke_of_WF hwf hk (Call.DeletePage p) (fun b => bpm.DeletePage b p)
    exact ⟨_, _, _, by simp only [step, DeletePgImp, h]; rfl⟩
  | FlushAllPages =>
    obtain ⟨r', h, _⟩ := FlushAllPgsImp_loop_spec bpm N (N - 0) r 0 rfl hwf
    refine ⟨r', RouterResult.done,
      (List.range' 0 (N - 0)).map (fun j => (j, Call.FlushAllPages)), ?_⟩
    simp only [step, FlushAllPgsImp, hwf.size, h]
    rfl

theorem run_frame (bpm : BufferPoolManager σ Page) :
    ∀ (ops : List RouterOp) (r r' : ParallelBufferPoolManager σ)
      (traces : List (RouterResult Page × List (Nat × Call))),
    run bpm r ops = some (r', traces) →
      Extends r'.instances_ r.instances_ ∧
      r'.instance_pool_size_ = r.instance_pool_size_ ∧
      r'.num_instances_ = r.num_instances_ := by
  intro ops
  induction ops with
  | nil =>
    intro r r' traces h
    simp only [run, Option.some.injEq, Prod.mk.injEq] at h
    obtain ⟨h1, _⟩ := h
    subst h1
    exact ⟨Extends_refl _, rfl, rfl⟩
  | cons op ops ih =>
    intro r r' traces h
    cases hs : step bpm r op with
    | none => simp [run, hs] at h
    | some x =>
      obtain ⟨r1, res, calls⟩ := x
      cases hr : run bpm r1 ops with
      | none => simp [run, hs, hr] at h
      | some y =>
        obtain ⟨r2, rest⟩ := y
        simp only [run, hs, hr, Option.some.injEq, Prod.mk.injEq] at h
        obtain ⟨h1, _⟩ := h
        subst h1
        obtain ⟨a1, a2, a3⟩ := step_frame bpm hs
        obtain ⟨b1, b2, b3⟩ := ih r1 r2 rest hr
        exact ⟨Extends_trans b1 a1, b2.trans a2, b3.trans a3⟩

theorem run_total (bpm : BufferPoolManager σ Page) {N : Nat} (hN : 0 < N) :
    ∀ (ops : List RouterOp) (r : ParallelBufferPoolManager σ), WF r N →
    ∃ r' traces, run bpm r ops = some (r', traces) ∧ traces.length = ops.length := by
  intro ops
  induction ops with
  | nil => intro r _; exact ⟨r, [], rfl, rfl⟩
  | cons op ops ih =>
    intro r hwf
    obtain ⟨r1, res, calls, hs⟩ := step_total bpm hwf hN op
    have hwf1 : WF r1 N := WF_of_Extends hwf (step_frame bpm hs).1
    obtain ⟨r2, rest, hr, hlen⟩ := ih r1 hwf1
    exact ⟨r2, (res, calls) :: rest, by simp only [run, hs, hr], by simp [hlen]⟩

end bustub.ParallelBufferPoolManager

namespace bustub.ParallelBufferPoolManager

variable {σ Page : Type}

theorem Delegated_store {r : ParallelBufferPoolManager σ} {k : Nat} {sh : σ}
    (h : instances_find r.instances_ k = some (some sh)) (v : σ) :
    Delegated r k v { r with instances_ := instances_store r.instances_ k v } := by
  refine ⟨rfl, rfl, rfl, instances_store_keys _ _ _, ?_, ?_⟩
  · show instances_find (instances_store r.instances_ k v) k = _
    rw [instances_find_store, if_pos rfl, h]
    rfl
  · intro k' hk'
    show instances_find (instances_store r.instances_ k v) k' = _
    rw [instances_find_store, if_neg hk']

end bustub.ParallelBufferPoolManager

/-! ## The contracts of the delegating operations -/

namespace bustub.ParallelBufferPoolManager

variable {σ Page : Type}

/-- C14 as stated fails for a negative page id.  On three shards, each of
`FetchPgImp(-1)`, `UnpinPgImp(-1, true)`, `FlushPgImp(-1)` and
`DeletePgImp(-1)` makes its call on the shard with index 0, whereas the owner
index `-1 mod 3` is 2. -/
theorem delegation_negative_page_id :
    (FetchPgImp Example.listShard Example.router3 (-1)).map (fun x => x.2.2) =
      some [(0, Call.FetchPage (-1))] ∧
    (UnpinPgImp Example.listShard Example.router3 (-1) true).map (fun x => x.2.2) =
      some [(0, Call.UnpinPage (-1) true)] ∧
    (FlushPgImp Example.listShard Example.router3 (-1)).map (fun x => x.2.2) =
      some [(0, Call.FlushPage (-1))] ∧
    (DeletePgImp Example.listShard Example.router3 (-1)).map (fun x => x.2.2) =
      some [(0, Call.DeletePage (-1))] ∧
    (-1 : Int) % (3 : Int) = 2 ∧ Int.tmod (-1) 3 = -1 := by
  decide

/-- C14, amended.  Delegation of the per-page operations.  On a router with
`N > 0` shards, for every page id `p` and dirty flag, each of `FetchPgImp(p)`,
`UnpinPgImp(p, is_dirty)`, `FlushPgImp(p)` and `DeletePgImp(p)` completes,
makes exactly one shard call, the same-named operation with the same
arguments on the shard under the index `k` that `GetBufferPoolManager(p)`
selects, returns what that shard returned, and leaves a router that differs
from the old one only in the state of that shard: the cursor, the sizes, the
keys and every other shard are unchanged.  For a non-negative `p` the index
`k` is the owner index `p mod N`; for a negative `p` it is
`(p + 2^64) mod N`. -/
theorem delegation (bpm : BufferPoolManager σ Page) (r : ParallelBufferPoolManager σ)
    (N : Nat) (hwf : WF r N) (hN : 0 < N) (p : page_id_t) (is_dirty : Bool) :
    ∃ k sh, GetBufferPoolManager_index p N = some k ∧ k < N ∧
      ((0 : Int) ≤ p → (p : Int) < 2 ^ 64 → (k : Int) = (p : Int) % (N : Int)) ∧
      ((p : Int) < 0 → -(2 ^ 64 : Int) ≤ p → (k : Int) = ((p : Int) + 2 ^ 64) % (N : Int)) ∧
      GetBufferPoolManager r p = some (r, k, some sh) ∧
      (∃ r', FetchPgImp bpm r p =
          some (r', (bpm.FetchPage sh p).2, [(k, Call.FetchPage p)]) ∧
        Delegated r k (bpm.FetchPage sh p).1 r') ∧
      (∃ r', UnpinPgImp bpm r p is_dirty =
          some (r', (bpm.UnpinPage sh p is_dirty).2, [(k, Call.UnpinPage p is_dirty)]) ∧
        Delegated r k (bpm.UnpinPage sh p is_dirty).1 r') ∧
      (∃ r', FlushPgImp bpm r p =
          some (r', (bpm.FlushPage sh p).2, [(k, Call.FlushPage p)]) ∧
        Delegated r k (bpm.FlushPage sh p).1 r') ∧
      (∃ r', DeletePgImp bpm r p =
          some (r', (bpm.DeletePage sh p).2, [(k, Call.DeletePage p)]) ∧
        Delegated r k (bpm.DeletePage sh p).1 r') := by
  have hk : GetBufferPoolManager_index p N =
      some ((p % (2 ^ SIZE_BITS : Int)).toNat % N) := by
    unfold GetBufferPoolManager_index
    rw [if_neg (by omega)]
  have hlt : (p % (2 ^ SIZE_BITS : Int)).toNat % N < N := Nat.mod_lt _ hN
  have hNz : (N : Int) ≠ 0 := by exact_mod_cast (by omega : N ≠ 0)
  have hcast : ∀ q : Int, 0 ≤ q → ((q.toNat % N : Nat) : Int) = q % (N : Int) := by
    intro q hq
    rw [toNat_mod_of_nonneg hq]
    exact Int.toNat_of_nonneg (Int.emod_nonneg q hNz)
  obtain ⟨sh, hsh, hg⟩ := GetBufferPoolManager_of_WF hwf hk
  refine ⟨_, sh, hk, hlt, ?_, ?_, hg, ?_, ?_, ?_, ?_⟩
  · intro h0 h64
    have : p % (2 ^ SIZE_BITS : Int) = p := Int.emod_eq_of_lt h0 h64
    rw [this]
    exact hcast p h0
  · intro hneg hlo
    have hb : (2 ^ SIZE_BITS : Int) = 2 ^ 64 := rfl
    have : p % (2 ^ SIZE_BITS : Int) = p + 2 ^ 64 := by
      rw [hb, ← Int.add_emod_self]
      exact Int.emod_eq_of_lt (by linarith) (by linarith)
    rw [this]
    exact hcast _ (by linarith)
  · exact ⟨_, by rw [FetchPgImp, hg]; rfl, Delegated_store hsh _⟩
  · exact ⟨_, by rw [UnpinPgImp, hg]; rfl, Delegated_store hsh _⟩
  · exact ⟨_, by rw [FlushPgImp, hg]; rfl, Delegated_store hsh _⟩
  · exact ⟨_, by rw [DeletePgImp, hg]; rfl, Delegated_store hsh _⟩

/-- Witness of the amended C14: on the three-shard router page id 4 is served by
shard 1, its owner `4 mod 3`, and page id -1 by shard 0, which is
`(-1 + 2^64) mod 3`. -/
theorem delegation_witness :
    WF Example.router3 3 ∧
    (∃ r', FetchPgImp Example.listShard Example.router3 4 =
        some (r', none, [(1, Call.FetchPage 4)])) ∧
    (∃ r', UnpinPgImp Example.listShard Example.router3 (-1) true =
        some (r', false, [(0, Call.UnpinPage (-1) true)])) := by
  obtain ⟨k, sh, hk, _, h1, _, hg, ⟨r', hf, _⟩, _⟩ :=
    delegation Example.listShard Example.router3 3 Example.WF_router3 (by decide) 4 true
  obtain ⟨k', sh', hk', _, _, h2', hg', _, ⟨r'', hu, _⟩, _⟩ :=
    delegation Example.listShard Example.router3 3 Example.WF_router3 (by decide) (-1) true
  have hk4 : k = 1 := by
    have : GetBufferPoolManager_index 4 3 = some 1 := by decide
    rw [this] at hk
    exact (Option.some.inj hk).symm
  have hk1 : k' = 0 := by
    have : GetBufferPoolManager_index (-1) 3 = some 0 := by decide
    rw [this] at hk'
    exact (Option.some.inj hk').symm
  subst hk4
  subst hk1
  exact ⟨Example.WF_router3, ⟨r', hf⟩, ⟨r'', hu⟩⟩

/-- C15. `FlushAllPgsImp` on a router with `N` shards (any `N`, `0` and `1`
included) completes and makes exactly `N` shard calls: `FlushAllPages` on the
shards `0, 1, ..., N-1`, in that order, once each, and no other call.  Every
shard has made its `FlushAllPages` step; the cursor and the shard collection
are unchanged. -/
theorem FlushAllPages_contract (bpm : BufferPoolManager σ Page)
    (r : ParallelBufferPoolManager σ) (N : Nat) (hwf : WF r N) :
    ∃ r', FlushAllPgsImp bpm r =
        some (r', (List.range N).map (fun i => (i, Call.FlushAllPages))) ∧
      ((List.range N).map (fun i => (i, Call.FlushAllPages))).length = N ∧
      (∀ k, k < N → ∀ sh, instances_find r.instances_ k = some (some sh) →
        instances_find r'.instances_ k = some (some (bpm.FlushAllPages sh))) ∧
      r'.starting_index_ = r.starting_index_ ∧
      r'.instances_.map Prod.fst = r.instances_.map Prod.fst ∧
      WF r' N := by
  obtain ⟨r', h, hpost, _⟩ := FlushAllPgsImp_loop_spec bpm N (N - 0) r 0 rfl hwf
  have hcall : FlushAllPgsImp bpm r =
      some (r', (List.range N).map (fun i => (i, Call.FlushAllPages))) := by
    unfold FlushAllPgsImp
    rw [hwf.size, h, List.range_eq_range']
    rfl
  obtain ⟨hext, hcur, _, _⟩ := FlushAllPgsImp_frame bpm hcall
  exact ⟨r', hcall, by simp, fun k hk sh hsh => hpost k (Nat.zero_le k) hk sh hsh, hcur,
    hext.1, WF_of_Extends hwf hext⟩

/-- Witness of C15: three shards, and no shard at all. -/
theorem FlushAllPages_contract_witness :
    (WF Example.router3 3 ∧
      ∃ r', FlushAllPgsImp Example.listShard Example.router3 =
        some (r', [(0, Call.FlushAllPages), (1, Call.FlushAllPages),
          (2, Call.FlushAllPages)])) ∧
    (WF (new Example.listShard 0 5) 0 ∧
      ∃ r', FlushAllPgsImp Example.listShard (new Example.listShard 0 5) = some (r', [])) := by
  refine ⟨⟨Example.WF_router3, ?_⟩, ⟨WF_new _ 0 5, ?_⟩⟩
  · obtain ⟨r', h, _⟩ :=
      FlushAllPages_contract Example.listShard Example.router3 3 Example.WF_router3
    exact ⟨r', h⟩
  · obtain ⟨r', h, _⟩ :=
      FlushAllPages_contract Example.listShard (new Example.listShard 0 5) 0 (WF_new _ 0 5)
    exact ⟨r', h⟩

end bustub.ParallelBufferPoolManager

/-! ## Stability of the shard collection and of the capacity -/

namespace bustub.ParallelBufferPoolManager

variable {σ Page : Type}

theorem GetPoolSize_run (bpm : BufferPoolManager σ Page) {r r' : ParallelBufferPoolManager σ}
    {ops : List RouterOp} {out : List (RouterResult Page × List (Nat × Call))}
    (h : run bpm r ops = some (r', out)) : GetPoolSize r' = GetPoolSize r := by
  obtain ⟨_, h2, h3⟩ := run_frame bpm ops r r' out h
  unfold GetPoolSize
  rw [h2, h3]

/-- C17. Ownership is stable.  On a router constructed with `N > 0` shards
every sequence of router calls (`NewPage`, `FetchPage`, `UnpinPage`,
`FlushPage`, `DeletePage`, `FlushAllPages`) completes, and afterwards the keys
of the shard collection are still exactly `0, 1, ..., N-1`, each holding a
shard; for every page id `p` the lookup of `GetBufferPoolManager(p)` leaves
the collection as it is and selects the same index before and after the
sequence. -/
theorem ownership_stable (bpm : BufferPoolManager σ Page) (N pool_size : Nat) (hN : 0 < N)
    (ops : List RouterOp) :
    ∃ r' out, run bpm (new bpm N pool_size) ops = some (r', out) ∧
      (new bpm N pool_size).instances_.map Prod.fst = List.range N ∧
      r'.instances_.map Prod.fst = List.range N ∧
      (∀ k, k < N → ∃ sh, instances_find r'.instances_ k = some (some sh)) ∧
      ∀ p : page_id_t, ∃ k sh sh', GetBufferPoolManager_index p N = some k ∧ k < N ∧
        GetBufferPoolManager (new bpm N pool_size) p =
          some (new bpm N pool_size, k, some sh) ∧
        GetBufferPoolManager r' p = some (r', k, some sh') := by
  have hwf := WF_new bpm N pool_size
  obtain ⟨r', out, hrun, _⟩ := run_total bpm hN ops (new bpm N pool_size) hwf
  have hext := (run_frame bpm ops _ r' out hrun).1
  have hwf' : WF r' N := WF_of_Extends hwf hext
  refine ⟨r', out, hrun, keys_new bpm N pool_size, ?_, hwf'.present, ?_⟩
  · rw [hext.1, keys_new]
  · intro p
    obtain ⟨k, hk, hlt⟩ := GetBufferPoolManager_index_isSome p hN
    obtain ⟨sh, _, hg⟩ := GetBufferPoolManager_of_WF hwf hk
    obtain ⟨sh', _, hg'⟩ := GetBufferPoolManager_of_WF hwf' hk
    exact ⟨k, sh, sh', hk, hlt, hg, hg'⟩

/-- Witness of C17: three shards of two frames, a sequence with every kind of
call. -/
theorem ownership_stable_witness :
    ∃ r' out, run Example.listShard (new Example.listShard 3 2)
        [RouterOp.NewPage, RouterOp.FetchPage 0, RouterOp.UnpinPage 0 true,
          RouterOp.FlushPage (-1), RouterOp.DeletePage 7, RouterOp.FlushAllPages,
          RouterOp.NewPage] = some (r', out) ∧
      (new Example.listShard 3 2).instances_.map Prod.fst = List.range 3 ∧
      r'.instances_.map Prod.fst = List.range 3 ∧
      (∀ k, k < 3 → ∃ sh, instances_find r'.instances_ k = some (some sh)) ∧
      ∀ p : page_id_t, ∃ k sh sh', GetBufferPoolManager_index p 3 = some k ∧ k < 3 ∧
        GetBufferPoolManager (new Example.listShard 3 2) p =
          some (new Example.listShard 3 2, k, some sh) ∧
        GetBufferPoolManager r' p = some (r', k, some sh') :=
  ownership_stable Example.listShard 3 2 (by decide) _

/-- C18 as stated fails when the product does not fit in `size_t`: for a router
constructed with 2 shards of `2^63` frames `GetPoolSize` returns 0. -/
theorem GetPoolSize_wraps :
    GetPoolSize (new Example.listShard 2 (2 ^ 63)) = 0 ∧
    GetPoolSize (new Example.listShard 2 (2 ^ 63)) ≠ 2 * 2 ^ 63 := by
  decide

/-- C18, amended.  For a router constructed with `num_instances` shards of
`pool_size` frames whose product is below `2^64`, `GetPoolSize` returns
`num_instances * pool_size`; whenever a sequence of router calls completes
the value returned is the same as before it, and on a router with at least
one shard every sequence completes. -/
theorem GetPoolSize_contract (bpm : BufferPoolManager σ Page) (num_instances pool_size : Nat)
    (hbound : num_instances * pool_size < 2 ^ 64) (ops : List RouterOp) :
    GetPoolSize (new bpm num_instances pool_size) = num_instances * pool_size ∧
    (∀ r' out, run bpm (new bpm num_instances pool_size) ops = some (r', out) →
      GetPoolSize r' = num_instances * pool_size) ∧
    (0 < num_instances →
      ∃ r' out, run bpm (new bpm num_instances pool_size) ops = some (r', out) ∧
        GetPoolSize r' = num_instances * pool_size) := by
  have h0 : GetPoolSize (new bpm num_instances pool_size) = num_instances * pool_size := by
    show (num_instances * pool_size) % 2 ^ SIZE_BITS = _
    exact Nat.mod_eq_of_lt hbound
  refine ⟨h0, fun r' out h => (GetPoolSize_run bpm h).trans h0, fun hN => ?_⟩
  obtain ⟨r', out, hrun, _⟩ := run_total bpm hN ops _ (WF_new bpm num_instances pool_size)
  exact ⟨r', out, hrun, (GetPoolSize_run bpm hrun).trans h0⟩

/-- Witness of the amended C18: three shards of two frames. -/
theorem GetPoolSize_contract_witness :
    GetPoolSize (new Example.listShard 3 2) = 6 ∧
    ∃ r' out, run Example.listShard (new Example.listShard 3 2)
        [RouterOp.NewPage, RouterOp.FetchPage 0, RouterOp.FlushAllPages] = some (r', out) ∧
      GetPoolSize r' = 6 :=
  ⟨(GetPoolSize_contract Example.listShard 3 2 (by decide) []).1,
    (GetPoolSize_contract Example.listShard 3 2 (by decide)
      [RouterOp.NewPage, RouterOp.FetchPage 0, RouterOp.FlushAllPages]).2.2 (by decide)⟩

end bustub.ParallelBufferPoolManager

/-! ## Rotation of the cursor -/

namespace bustub.ParallelBufferPoolManager

variable {σ Page : Type}

end bustub.ParallelBufferPoolManager

namespace bustub.ParallelBufferPoolManager

variable {σ Page : Type}

/-- C13.  The code does not rotate the starting shard after every call.  The
comment in `NewPgImp` promises a search that starts "at a different BPMI each
time this function is called", but the cursor advances once per probe, modulo
`2^64`.  After a failure over the full cycle (three shards, all without a
page, cursor 7) the next call begins at shard 1 again.  After a success at the
last probe of the cycle (two shards, shard 0 without a page, cursor 0) the
next call begins at shard 0 again.  After a success at the first probe with
the cursor at `2^64 - 1` (three shards) the cursor wraps to 0 and the next
call begins at shard 0 again. -/
theorem NewPgImp_same_start :
    (run Example.listShard Example.router3_full [RouterOp.NewPage, RouterOp.NewPage]).map
        (fun x => x.2.map Prod.snd) =
      some [[(1, Call.NewPage), (2, Call.NewPage), (0, Call.NewPage)],
        [(1, Call.NewPage), (2, Call.NewPage), (0, Call.NewPage)]] ∧
    (run Example.listShard Example.router2 [RouterOp.NewPage, RouterOp.NewPage]).map
        (fun x => x.2.map Prod.snd) =
      some [[(0, Call.NewPage), (1, Call.NewPage)], [(0, Call.NewPage), (1, Call.NewPage)]] ∧
    (run Example.listShard Example.router3_top [RouterOp.NewPage, RouterOp.NewPage]).map
        (fun x => x.2) =
      some [(RouterResult.newPage (some (0, ())), [(0, Call.NewPage)]),
        (RouterResult.newPage (some (3, ())), [(0, Call.NewPage)])] ∧
    WF Example.router3_full 3 ∧ WF Example.router2 2 ∧ WF Example.router3_top 3 := by
  refine ⟨?_, ?_, ?_, Example.WF_router3_full, ?_, ?_⟩
  · simp [run, step, NewPgImp, NewPgImp_loop, Example.router3_full, Example.listShard,
      SIZE_BITS, instances_at, instances_find, instances_store]
  · simp [run, step, NewPgImp, NewPgImp_loop, Example.router2, Example.listShard,
      SIZE_BITS, instances_at, instances_find, instances_store]
  · simp [run, step, NewPgImp, NewPgImp_loop, Example.router3_top, Example.listShard,
      SIZE_BITS, instances_at, instances_find, instances_store]
  · constructor
    · rfl
    · intro k hk
      interval_cases k
      · exact ⟨[], rfl⟩
      · exact ⟨[1, 3], rfl⟩
  · constructor
    · rfl
    · intro k hk
      interval_cases k
      · exact ⟨[0, 3], rfl⟩
      · exact ⟨[1, 4], rfl⟩
      · exact ⟨[2, 5], rfl⟩

end bustub.ParallelBufferPoolManager

/-! ## Ownership of a created page -/

namespace bustub.ParallelBufferPoolManager

variable {σ Page : Type}

/-- A successful `NewPgImp` call during which the cursor does not wrap: the
probes were made at the offsets `0..j` for some `j < N`, and the page returned
was created by the shard at offset `j`, from the state it had before the
call. -/
theorem NewPgImp_nowrap_hit (bpm : BufferPoolManager σ Page)
    {r r' : ParallelBufferPoolManager σ} {N : Nat} (hwf : WF r N)
    (hnw : r.starting_index_ + N ≤ 2 ^ SIZE_BITS)
    {pg : page_id_t × Page} {calls : List (Nat × Call)}
    (hcall : NewPgImp bpm r = some (r', some pg, calls)) :
    ∃ j sh, j < N ∧ calls = (List.range (j + 1)).map (probe r.starting_index_ N) ∧
      instances_find r.instances_ ((r.starting_index_ + j) % N) = some (some sh) ∧
      (bpm.NewPage sh).2 = some pg ∧
      instances_find r'.instances_ ((r.starting_index_ + j) % N) =
        some (some (bpm.NewPage sh).1) := by
  classical
  unfold NewPgImp at hcall
  rw [hwf.size] at hcall
  by_cases hN0 : N = 0
  · subst hN0
    rw [NewPgImp_loop_break bpm r (by omega)] at hcall
    cases hcall
  have hN : 0 < N := Nat.pos_of_ne_zero hN0
  have hs : r.starting_index_ < 2 ^ SIZE_BITS := by omega
  by_cases hall : ∀ i, i < N → ∀ sh,
      instances_find r.instances_ ((r.starting_index_ + i) % N) = some (some sh) →
        (bpm.NewPage sh).2 = none
  · obtain ⟨r1, _, _, _, _, _, _, h7⟩ :=
      NewPgImp_loop_misses bpm N N r 0 (by omega) hs hnw
        (fun i hi => by
          obtain ⟨sh, hsh⟩ := hwf.present ((r.starting_index_ + i) % N) (Nat.mod_lt _ hN)
          exact ⟨sh, hsh, hall i hi sh hsh⟩)
    rw [h7, NewPgImp_loop_break bpm r1 (by omega)] at hcall
    simp at hcall
  · have hex : ∃ i, i < N ∧ ∃ sh,
        instances_find r.instances_ ((r.starting_index_ + i) % N) = some (some sh) ∧
          (bpm.NewPage sh).2 ≠ none := by
      by_contra hcon
      apply hall
      intro i hi sh hsh
      by_contra hne
      exact hcon ⟨i, hi, sh, hsh, hne⟩
    have hjspec := Nat.find_spec hex
    have hjmin := fun i (hi : i < Nat.find hex) => Nat.find_min hex hi
    generalize Nat.find hex = j at hjspec hjmin
    obtain ⟨hj, shj, hshj, hne⟩ := hjspec
    obtain ⟨pg0, hpg0⟩ := Option.ne_none_iff_exists'.1 hne
    obtain ⟨r1, h1, _, _, _, h5, _, h7⟩ :=
      NewPgImp_loop_misses bpm N j r 0 (by omega) hs (by omega)
        (fun i hi => by
          obtain ⟨sh, hsh⟩ := hwf.present ((r.starting_index_ + i) % N) (Nat.mod_lt _ hN)
          refine ⟨sh, hsh, ?_⟩
          by_contra hc
          exact hjmin i hi ⟨by omega, sh, hsh, hc⟩)
    rw [Nat.mod_eq_of_lt (show r.starting_index_ + j < 2 ^ SIZE_BITS by omega)] at h1
    have hkj : ∀ i, i < j → (r.starting_index_ + j) % N ≠ (r.starting_index_ + i) % N :=
      fun i hi => (add_mod_ne hi hj).symm
    have hf1 : instances_find r1.instances_ (r1.starting_index_ % N) = some (some shj) := by
      rw [h1, h5 _ hkj]; exact hshj
    have hhit := NewPgImp_loop_hit bpm (show 0 + j < N by omega) hf1 hpg0
    rw [h7, hhit] at hcall
    simp only [Option.some.injEq, Prod.mk.injEq] at hcall
    obtain ⟨hr', hpg, hcalls⟩ := hcall
    subst hpg
    refine ⟨j, shj, hj, ?_, hshj, hpg0, ?_⟩
    · rw [← hcalls]
      simp only [List.range_succ, List.map_append, List.map_cons, List.map_nil, probe, h1]
    · rw [← hr']
      show instances_find (instances_store r1.instances_ _ _) _ = _
      rw [instances_find_store, h1, if_pos rfl, ← h1, hf1]
      rfl

/-- On a router that holds its `N` shards, a non-negative page id `p` (in the
range of the page id type) that is congruent to `k < N` modulo `N` is routed
to the shard under index `k` by `GetBufferPoolManager` and by the four
delegating operations. -/
theorem owner_routes (bpm : BufferPoolManager σ Page) {r' : ParallelBufferPoolManager σ}
    {N : Nat} (hwf' : WF r' N) {k : Nat} (hk : k < N) {v : σ}
    (hfind : instances_find r'.instances_ k = some (some v)) {p : page_id_t}
    (h0 : (0 : Int) ≤ p) (h63 : (p : Int) < 2 ^ 63) (hmod : (p : Int) % (N : Int) = (k : Int)) :
    GetBufferPoolManager_index p N = some k ∧
    GetBufferPoolManager r' p = some (r', k, some v) ∧
    (∃ x, FetchPgImp bpm r' p = some x ∧ x.2.2 = [(k, Call.FetchPage p)]) ∧
    (∀ d, ∃ x, UnpinPgImp bpm r' p d = some x ∧ x.2.2 = [(k, Call.UnpinPage p d)]) ∧
    (∃ x, FlushPgImp bpm r' p = some x ∧ x.2.2 = [(k, Call.FlushPage p)]) ∧
    (∃ x, DeletePgImp bpm r' p = some x ∧ x.2.2 = [(k, Call.DeletePage p)]) := by
  have hidx : GetBufferPoolManager_index p N = some k := by
    unfold GetBufferPoolManager_index
    rw [if_neg (by omega), size_t_conversion (by linarith) h63, if_pos h0,
      toNat_mod_of_nonneg h0, hmod, Int.toNat_natCast]
  obtain ⟨sh', hsh', hg⟩ := GetBufferPoolManager_of_WF hwf' hidx
  rw [hfind] at hsh'
  simp only [Option.some.injEq] at hsh'
  subst hsh'
  refine ⟨hidx, hg, ?_, ?_, ?_, ?_⟩
  · exact ⟨_, by rw [FetchPgImp, hg]; rfl, rfl⟩
  · intro d
    exact ⟨_, by rw [UnpinPgImp, hg]; rfl, rfl⟩
  · exact ⟨_, by rw [FlushPgImp, hg]; rfl, rfl⟩
  · exact ⟨_, by rw [DeletePgImp, hg]; rfl, rfl⟩

/-- When the cursor wraps during a call a shard is probed twice, the second
time in the state its first `NewPage` left it in; so an assumption on what the
shards create has to cover the states they pass through.  On three fresh
`toggleShard`s with the cursor at `2^64 - 1` no shard creates a page from the
state it has before the call, yet the call probes shard 0 twice and returns
the page id 1, which `GetBufferPoolManager` routes to shard 1. -/
theorem twice_probed_shard :
    WF Example.router3_toggle 3 ∧
    (∀ k, k < 3 → ∀ sh,
      instances_find Example.router3_toggle.instances_ k = some (some sh) →
        (Example.toggleShard.NewPage sh).2 = none) ∧
    (NewPgImp Example.toggleShard Example.router3_toggle).map (fun x => (x.2.1, x.2.2)) =
      some (some ((1 : Int), ()), [(0, Call.NewPage), (0, Call.NewPage)]) ∧
    GetBufferPoolManager_index 1 3 = some 1 := by
  have hfind : ∀ k, k < 3 →
      instances_find Example.router3_toggle.instances_ k = some (some false) := by
    intro k hk
    interval_cases k <;> rfl
  refine ⟨⟨rfl, fun k hk => ⟨false, hfind k hk⟩⟩, ?_, ?_, by decide⟩
  · intro k hk sh hsh
    rw [hfind k hk] at hsh
    cases hsh
    rfl
  · simp [NewPgImp, NewPgImp_loop, Example.router3_toggle, Example.toggleShard, SIZE_BITS,
      instances_at, instances_find, instances_store]

/-- C12. A created page is owned by the shard that created it.  The
constructor stores under index `i` the shard built with shard index `i` and
shard count `N`.  Take a router holding its `N` shards, with any value of the
cursor, and a `NewPgImp` call on it that returns a page with id `p`.  If every
shard only creates non-negative page ids (in the range of the page id type)
congruent to its own index modulo `N`, in every state it can be in (`I k sh`,
which holds of the shards of the router and which a `NewPage` step
preserves), then the shard `k` probed last is the one that created `p`, and
`GetBufferPoolManager(p)` on the resulting router selects index `k`; so
`FetchPgImp`, `UnpinPgImp`, `FlushPgImp` and `DeletePgImp` on `p` each make
their one call on the shard `k`.  When the cursor does not wrap during the
call (`s + N ≤ 2^64`) no shard is probed twice, and it is enough that the
shards create such page ids from the states they have before the call. -/
theorem created_page_owned (bpm : BufferPoolManager σ Page) (N pool_size : Nat)
    (r : ParallelBufferPoolManager σ) (hwf : WF r N)
    (r' : ParallelBufferPoolManager σ) (pg : page_id_t × Page) (calls : List (Nat × Call))
    (hcall : NewPgImp bpm r = some (r', some pg, calls)) :
    (∀ i, i < N → instances_find (new bpm N pool_size).instances_ i =
      some (some (bpm.create pool_size N i))) ∧
    (∀ I : Nat → σ → Prop,
      (∀ k, k < N → ∀ sh, I k sh → I k (bpm.NewPage sh).1) →
      (∀ k, k < N → ∀ sh, I k sh → ∀ pg, (bpm.NewPage sh).2 = some pg →
        (0 : Int) ≤ pg.1 ∧ (pg.1 : Int) < 2 ^ 63 ∧ (pg.1 : Int) % (N : Int) = (k : Int)) →
      (∀ k, k < N → ∀ sh, instances_find r.instances_ k = some (some sh) → I k sh) →
      ∃ k sh, calls.getLast? = some (k, Call.NewPage) ∧ k < N ∧ I k sh ∧
        (bpm.NewPage sh).2 = some pg ∧
        GetBufferPoolManager_index pg.1 N = some k ∧
        GetBufferPoolManager r' pg.1 = some (r', k, some (bpm.NewPage sh).1) ∧
        (∃ x, FetchPgImp bpm r' pg.1 = some x ∧ x.2.2 = [(k, Call.FetchPage pg.1)]) ∧
        (∀ d, ∃ x, UnpinPgImp bpm r' pg.1 d = some x ∧
          x.2.2 = [(k, Call.UnpinPage pg.1 d)]) ∧
        (∃ x, FlushPgImp bpm r' pg.1 = some x ∧ x.2.2 = [(k, Call.FlushPage pg.1)]) ∧
        (∃ x, DeletePgImp bpm r' pg.1 = some x ∧ x.2.2 = [(k, Call.DeletePage pg.1)])) ∧
    (r.starting_index_ + N ≤ 2 ^ SIZE_BITS →
      (∀ k, k < N → ∀ sh, instances_find r.instances_ k = some (some sh) →
        ∀ pg, (bpm.NewPage sh).2 = some pg →
          (0 : Int) ≤ pg.1 ∧ (pg.1 : Int) < 2 ^ 63 ∧ (pg.1 : Int) % (N : Int) = (k : Int)) →
      ∃ k sh, calls.getLast? = some (k, Call.NewPage) ∧ k < N ∧
        instances_find r.instances_ k = some (some sh) ∧
        (bpm.NewPage sh).2 = some pg ∧
        GetBufferPoolManager_index pg.1 N = some k ∧
        GetBufferPoolManager r' pg.1 = some (r', k, some (bpm.NewPage sh).1) ∧
        (∃ x, FetchPgImp bpm r' pg.1 = some x ∧ x.2.2 = [(k, Call.FetchPage pg.1)]) ∧
        (∀ d, ∃ x, UnpinPgImp bpm r' pg.1 d = some x ∧
          x.2.2 = [(k, Call.UnpinPage pg.1 d)]) ∧
        (∃ x, FlushPgImp bpm r' pg.1 = some x ∧ x.2.2 = [(k, Call.FlushPage pg.1)]) ∧
        (∃ x, DeletePgImp bpm r' pg.1 = some x ∧ x.2.2 = [(k, Call.DeletePage pg.1)])) := by
  have hwf' : WF r' N := WF_of_Extends hwf (NewPgImp_frame bpm hcall).1
  refine ⟨fun i hi => find_new bpm N pool_size hi, ?_, ?_⟩
  · intro I hI hmint hr
    have hloop : NewPgImp_loop bpm N r 0 = some (r', some pg, calls) := by
      have h := hcall
      unfold NewPgImp at h
      rw [hwf.size] at h
      exact h
    obtain ⟨_, h2⟩ :=
      NewPgImp_loop_inv bpm N (fun k sh => k < N → I k sh)
        (fun k sh h hk => hI k hk sh (h hk)) (N + 1) r 0 (by omega)
        (fun k sh hsh hk => hr k hk sh hsh) r' (some pg) calls hloop
    obtain ⟨k, sh0, hlast, hk, hIk, hpg, hfind⟩ := h2 pg rfl
    obtain ⟨h0, h63, hmod⟩ := hmint k hk sh0 (hIk hk) pg hpg
    exact ⟨k, sh0, hlast, hk, hIk hk, hpg, owner_routes bpm hwf' hk hfind h0 h63 hmod⟩
  · intro hnw hmint
    obtain ⟨j, sh, hj, hcalls, hsh, hpg, hfind⟩ := NewPgImp_nowrap_hit bpm hwf hnw hcall
    have hk : (r.starting_index_ + j) % N < N := Nat.mod_lt _ (by omega)
    obtain ⟨h0, h63, hmod⟩ := hmint _ hk sh hsh pg hpg
    refine ⟨_, sh, ?_, hk, hsh, hpg, owner_routes bpm hwf' hk hfind h0 h63 hmod⟩
    rw [hcalls, List.range_succ, List.map_append, List.map_cons, List.map_nil,
      List.getLast?_concat]
    rfl

/-- Witness of C12: on the three-shard router with cursor 3, whose shards only
hold page ids of their own congruence class, the call returns page 4, created
by shard 1, and page 4 is routed to shard 1. -/
theorem created_page_owned_witness :
    WF Example.router3 3 ∧
    NewPgImp Example.listShard Example.router3 =
      some (Example.router3_after, some ((4 : Int), ()),
        [(0, Call.NewPage), (1, Call.NewPage)]) ∧
    Example.router3.starting_index_ + 3 ≤ 2 ^ SIZE_BITS ∧
    (∃ k sh, ([(0, Call.NewPage), (1, Call.NewPage)] : List (Nat × Call)).getLast? =
        some (k, Call.NewPage) ∧ k < 3 ∧
      (∀ p, p ∈ sh → (0 : Int) ≤ p ∧ p < 2 ^ 63 ∧ p % ((3 : Nat) : Int) = (k : Int)) ∧
      (Example.listShard.NewPage sh).2 = some ((4 : Int), ()) ∧
      GetBufferPoolManager_index 4 3 = some k ∧
      GetBufferPoolManager Example.router3_after 4 =
        some (Example.router3_after, k, some (Example.listShard.NewPage sh).1)) ∧
    ∃ k sh, ([(0, Call.NewPage), (1, Call.NewPage)] : List (Nat × Call)).getLast? =
        some (k, Call.NewPage) ∧ k < 3 ∧
      instances_find Example.router3.instances_ k = some (some sh) ∧
      (Example.listShard.NewPage sh).2 = some ((4 : Int), ()) ∧
      GetBufferPoolManager_index 4 3 = some k ∧
      GetBufferPoolManager Example.router3_after 4 =
        some (Example.router3_after, k, some (Example.listShard.NewPage sh).1) ∧
      (∃ x, FetchPgImp Example.listShard Example.router3_after 4 = some x ∧
        x.2.2 = [(k, Call.FetchPage 4)]) ∧
      (∀ d, ∃ x, UnpinPgImp Example.listShard Example.router3_after 4 d = some x ∧
        x.2.2 = [(k, Call.UnpinPage 4 d)]) ∧
      (∃ x, FlushPgImp Example.listShard Example.router3_after 4 = some x ∧
        x.2.2 = [(k, Call.FlushPage 4)]) ∧
      (∃ x, DeletePgImp Example.listShard Example.router3_after 4 = some x ∧
        x.2.2 = [(k, Call.DeletePage 4)]) := by
  have hcall : NewPgImp Example.listShard Example.router3 =
      some (Example.router3_after, some ((4 : Int), ()),
        [(0, Call.NewPage), (1, Call.NewPage)]) := by
    simp [NewPgImp, NewPgImp_loop, Example.router3, Example.router3_after, Example.listShard,
      SIZE_BITS, instances_at, instances_find, instances_store]
  have hnw : Example.router3.starting_index_ + 3 ≤ 2 ^ SIZE_BITS := by
    simp [Example.router3, SIZE_BITS]
  have hstates : ∀ k, k < 3 → ∀ sh,
      instances_find Example.router3.instances_ k = some (some sh) →
      ∀ p, p ∈ sh → (0 : Int) ≤ p ∧ p < 2 ^ 63 ∧ p % ((3 : Nat) : Int) = (k : Int) := by
    intro k hk sh hsh p hp
    interval_cases k
    · simp only [Example.router3, instances_find] at hsh
      simp at hsh
      subst hsh
      cases hp
    · simp only [Example.router3, instances_find] at hsh
      simp at hsh
      subst hsh
      simp at hp
      subst hp
      decide
    · simp only [Example.router3, instances_find] at hsh
      simp at hsh
      subst hsh
      simp at hp
      rcases hp with rfl | rfl <;> decide
  obtain ⟨_, ha, hb⟩ :=
    created_page_owned Example.listShard 3 2 Example.router3 Example.WF_router3
      Example.router3_after ((4 : Int), ()) _ hcall
  refine ⟨Example.WF_router3, hcall, hnw, ?_, ?_⟩
  · obtain ⟨k, sh, h1, h2, h3, h4, h5, h6, _⟩ :=
      ha (fun k sh => ∀ p, p ∈ sh → (0 : Int) ≤ p ∧ p < 2 ^ 63 ∧ p % ((3 : Nat) : Int) = (k : Int))
        (by
          intro k _ sh h p hp
          cases sh with
          | nil => cases hp
          | cons q t => exact h p (List.mem_cons_of_mem q hp))
        (by
          intro k _ sh h pg hpg
          cases sh with
          | nil => cases hpg
          | cons q t =>
            have hq : pg.1 = q := by
              have : some (q, ()) = some pg := hpg
              cases this
              rfl
            rw [hq]
            exact h q (List.mem_cons_self q t))
        hstates
    exact ⟨k, sh, h1, h2, h3, h4, h5, h6⟩
  · exact hb hnw (by
      intro k hk sh hsh pg hpg
      cases sh with
      | nil => cases hpg
      | cons q t =>
        have hq : pg.1 = q := by
          have : some (q, ()) = some pg := hpg
          cases this
          rfl
        rw [hq]
        exact hstates k hk (q :: t) hsh q (List.mem_cons_self q t))

end bustub.ParallelBufferPoolManager
